import Mathlib

/-!
Verification of the reviewer-selection logic of `highfive` (`src/highfive/newpr.py`).

The Python code is shallowly embedded: dictionaries become association lists
(Python `dict` preserves insertion order, which the association lists model
directly), Python strings become `String`, and every string operation used by
the source (`split`, `find`, `startswith`, `endswith`, `join`, slicing) is
re-implemented below by structural recursion on the character list so that all
definitions are executable and kernel-reducible.  The `while potential:` loop
of `choose_reviewer` is embedded with explicit fuel; a separate theorem shows
the fuel bound used by the embedding is always sufficient.
-/

/-- Python `str.split(sep)` for a one-character separator: splits on every
occurrence and keeps empty pieces; the empty string yields `[""]`. -/
def splitOnCharAux (sep : Char) : List Char → List Char → List String
  | [], acc => [String.mk acc.reverse]
  | c :: rest, acc =>
    if c == sep then String.mk acc.reverse :: splitOnCharAux sep rest []
    else splitOnCharAux sep rest (c :: acc)

/-- Python `s.split(sep)` for a one-character separator. -/
def strSplitOnChar (sep : Char) (s : String) : List String :=
  splitOnCharAux sep s.toList []

/-- Python `s.startswith(p)`. -/
def strStartsWith (s p : String) : Bool :=
  p.toList.isPrefixOf s.toList

/-- Python `s.endswith(p)`. -/
def strEndsWith (s p : String) : Bool :=
  p.toList.isSuffixOf s.toList

/-- Index of the first occurrence of `sub` in a character list
(Python `str.find`, but returning `none` instead of `-1`). -/
def listFindSub (sub : List Char) : List Char → Option Nat
  | [] => if sub.isEmpty then some 0 else none
  | l@(_ :: rest) =>
    if sub.isPrefixOf l then some 0
    else (listFindSub sub rest).map (· + 1)

/-- Python `sep.join(parts)`. -/
def strIntercalate (sep : String) : List String → String
  | [] => ""
  | x :: xs => xs.foldl (fun acc y => acc ++ (sep ++ y)) x

/-- `line[line.find(" b/") + len(" b/"):]` from the diff scans in
`choose_reviewer` (line 255) and `get_to_mention` (line 326).  When `find`
fails it returns `-1` in Python, so the slice then starts at index `2`. -/
def stripB (line : String) : String :=
  let cs := line.toList
  match listFindSub [' ', 'b', '/'] cs with
  | some i => String.mk (cs.drop (i + 3))
  | none => String.mk (cs.drop 2)

/-- Truthiness of the Python `cur_dir` variable, which is either `None` or a
string: `None` and `""` are falsy. -/
def truthyStr : Option String → Bool
  | none => false
  | some s => !s.toList.isEmpty

/-- Key lookup in an insertion-ordered association list (Python `d[k]` /
`d.get(k)`; keys are unique in every list built by the embedding). -/
def lookupAssoc {α : Type} (l : List (String × α)) (k : String) : Option α :=
  (l.find? (fun p => p.1 == k)).map (·.2)

/-- Python `k in d`. -/
def hasKey {α : Type} (l : List (String × α)) (k : String) : Bool :=
  (l.find? (fun p => p.1 == k)).isSome

/-- `counts[cur_dir] += 1` (line 270).  `cur_dir` is always a key of `counts`
at this point (it was inserted when the file header was scanned), so the
missing-key case is unreachable; Python would raise `KeyError` there. -/
def bumpCount : List (String × Nat) → String → List (String × Nat)
  | [], _ => []
  | (k, v) :: rest, d =>
    if k == d then (k, v + 1) :: rest else (k, v) :: bumpCount rest d

/-- One iteration of the diff scan in `choose_reviewer` (lines 251-270).
State: the current directory (`cur_dir`) and the ordered `counts` table. -/
def scanLine (st : Option String × List (String × Nat)) (line : String) :
    Option String × List (String × Nat) :=
  if strStartsWith line "diff --git " then
    let parts := strSplitOnChar '/' (stripB line)
    -- `if not parts: continue` — dead in Python too, `split` never returns []
    if parts.isEmpty then (none, st.2)
    else
      let cd := strIntercalate "/" (parts.take 2)
      let cd := if strStartsWith cd "src/librustc" then "src/librustc" else cd
      let cd : Option String := if cd == "src/test" then none else some cd
      let counts :=
        match cd with
        | some d =>
          if !d.toList.isEmpty && !hasKey st.2 d then st.2 ++ [(d, 0)] else st.2
        | none => st.2
      (cd, counts)
  else
    if truthyStr st.1 && !strStartsWith line "+++" && strStartsWith line "+" then
      (st.1, bumpCount st.2 (st.1.getD ""))
    else st

/-- The `counts` table after scanning a whole diff (lines 249-270); keys appear
in first-seen order, mirroring Python dict insertion order. -/
def scanCounts (diff : String) : List (String × Nat) :=
  ((strSplitOnChar '\n' diff).foldl scanLine (none, [])).2

/-- `Find the largest count.` (lines 272-277): strict comparison against the
running maximum, starting from `most_changes = 0`, `most_changed = None`. -/
def findMostChanged (counts : List (String × Nat)) : Option String :=
  (counts.foldl (fun acc dc => if dc.2 > acc.2 then (some dc.1, dc.2) else acc)
    ((none : Option String), 0)).1

/-- `most_changed` as computed by `choose_reviewer` (lines 245-277): the diff
is only inspected when the `dirs` table is non-empty. -/
def diffMostChanged (dirs : List (String × List String)) (diff : String) :
    Option String :=
  if dirs.isEmpty then none else findMostChanged (scanCounts diff)

/-- Merging the `_global.json` groups into the repository groups
(`choose_reviewer`, lines 238-243): each global entry is added in order after
asserting its name is not already a key.  The `assert` is modelled as
`Except.error`. -/
def mergeGroups : List (String × List String) → List (String × List String) →
    Except String (List (String × List String))
  | groups, [] => Except.ok groups
  | groups, (name, people) :: rest =>
    if hasKey groups name then
      Except.error ("group " ++ name ++ " overlaps with _global.json")
    else mergeGroups (groups ++ [(name, people)]) rest

/-- Fuel measure for the expansion loop: length of the work list plus the
total size of the member lists of all groups not yet marked as seen. -/
def expandMeasure (groups : List (String × List String))
    (seen pot : List String) : Nat :=
  pot.length +
    ((groups.filter (fun g => !seen.contains g.1)).map (fun g => g.2.length)).sum

/-- The `while potential:` alias-expansion loop of `choose_reviewer`
(lines 287-299), with explicit fuel (`none` = fuel exhausted; a sufficient
bound is proved below, so the pipeline never observes `none`).

Python pops from the end of `potential` and `extend`s at the end, so the work
list is represented reversed: the head is the next element popped, and
`potential.extend(groups[p])` prepends `(groups[p]).reverse`.

`coreAliased` models a Python aliasing effect: when the empty-pool fallback
`potential = groups['core']` was taken, `potential` and `groups['core']` are
the same list object, so expanding the token `"core"` extends the work list
with its own current contents (`rest ++ rest` in stack form) rather than with
the stored member list. -/
def expandLoop (groups : List (String × List String)) (coreAliased : Bool) :
    Nat → List String → List String → List String →
    Option (Except String (List String))
  | _, [], revs, _ => some (Except.ok revs)
  | 0, _ :: _, _, _ => none
  | fuel + 1, p :: rest, revs, seen =>
    if strStartsWith p "@" then
      -- remove the '@' marker from the username (line 293)
      expandLoop groups coreAliased fuel rest (revs ++ [String.mk p.toList.tail]) seen
    else
      match lookupAssoc groups p with
      | some members =>
        if seen.contains p then
          -- `assert p not in seen, "group %s refers to itself" % p` (line 296)
          some (Except.error ("group " ++ p ++ " refers to itself"))
        else if coreAliased && p == "core" then
          expandLoop groups coreAliased fuel (rest ++ rest) revs (seen ++ [p])
        else
          expandLoop groups coreAliased fuel (members.reverse ++ rest) revs (seen ++ [p])
      | none => expandLoop groups coreAliased fuel rest revs seen

/-- The candidate pool of `choose_reviewer` before the author is excluded
(lines 236-299): merge the global groups, pick the most-changed directory,
seed `potential` from `groups['all']` (plus the directory's entry when it is
a key of `dirs`), fall back to `groups['core']` when the pool is empty, and
run the expansion loop.  Missing `'all'`/`'core'` keys are Python `KeyError`s,
modelled as `Except.error`. -/
def choose_candidates (repoGroups globalGroups dirs : List (String × List String))
    (diff : String) : Except String (List String) :=
  match mergeGroups repoGroups globalGroups with
  | Except.error e => Except.error e
  | Except.ok groups =>
    let most_changed := diffMostChanged dirs diff
    match lookupAssoc groups "all" with
    | none => Except.error "KeyError: all"
    | some allMembers =>
      let potential :=
        match most_changed with
        | some d =>
          if !d.toList.isEmpty && hasKey dirs d then
            allMembers ++ ((lookupAssoc dirs d).getD [])
          else allMembers
        | none => allMembers
      if potential.isEmpty then
        match lookupAssoc groups "core" with
        | none => Except.error "KeyError: core"
        | some coreMembers =>
          match expandLoop groups true
              (2 * expandMeasure groups ["all"] coreMembers.reverse + 1)
              coreMembers.reverse [] ["all"] with
          | some r => r
          | none => Except.error "fuel exhausted"
      else
        match expandLoop groups false
            (2 * expandMeasure groups ["all"] potential.reverse + 1)
            potential.reverse [] ["all"] with
        | some r => r
        | none => Except.error "fuel exhausted"

/-- Python `list.remove(x)`: removes the first occurrence only. -/
def pyRemove : List String → String → List String
  | [], _ => []
  | x :: xs, e => if x == e then xs else x :: pyRemove xs e

/-- `if exclude in reviewers: reviewers.remove(exclude)` (lines 301-302)
applied to the expansion result. -/
def afterExclude (r : Except String (List String)) (exclude : String) :
    Except String (List String) :=
  match r with
  | Except.error e => Except.error e
  | Except.ok revs =>
    Except.ok (if revs.contains exclude then pyRemove revs exclude else revs)

/-- The reviewer list `choose_reviewer` draws from after excluding the author
(lines 236-302). -/
def choose_reviewer_list (repoGroups globalGroups dirs : List (String × List String))
    (diff exclude : String) : Except String (List String) :=
  afterExclude (choose_candidates repoGroups globalGroups dirs diff) exclude

/-- `random.choice(reviewers)` modelled as an arbitrary draw: index `k`
ranges over all possible random outcomes.  Empty list: `None` (line 308). -/
def chooseFrom (revs : List String) (k : Nat) : Option String :=
  if revs.isEmpty then none else revs.get? (k % revs.length)

/-- Full result of `choose_reviewer` (lines 232-308) for random draw `k`. -/
def choose_reviewer (repoGroups globalGroups dirs : List (String × List String))
    (diff exclude : String) (k : Nat) : Except String (Option String) :=
  (choose_reviewer_list repoGroups globalGroups dirs diff exclude).map
    (fun revs => chooseFrom revs k)

/-- Group-to-group edges of a merged configuration: the member tokens of `g`
that are themselves group names.  Used only to state acyclicity of concrete
configurations in counterexamples. -/
def groupSuccs (groups : List (String × List String)) (g : String) : List String :=
  ((lookupAssoc groups g).getD []).filter (fun t => (lookupAssoc groups t).isSome)

/-- Groups reachable from the given frontier in at most `n` further steps. -/
def reachIter (groups : List (String × List String)) :
    Nat → List String → List String
  | 0, s => s
  | n + 1, s => reachIter groups n (s ++ s.flatMap (groupSuccs groups))

/-- `g` reaches itself through at least one alias edge. -/
def groupReachesItself (groups : List (String × List String)) (g : String) : Bool :=
  (reachIter groups groups.length (groupSuccs groups g)).contains g

/-- Some group of the configuration lies on an alias cycle. -/
def groupsHaveCycle (groups : List (String × List String)) : Bool :=
  (groups.map (·.1)).any (groupReachesItself groups)

deriving instance DecidableEq for Except

/-- A configured mention rule (`mentions` values in the repository config):
optional free-text message, optional command token, and a reviewer list. -/
structure MentionRule where
  message : Option String
  command : Option String
  reviewers : List String
deriving DecidableEq

/-- One iteration of the diff scan in `get_to_mention` (lines 322-343).
State: `cur_dir` and the ordered list of matched mention keys. -/
def mentionScanLine (mentions : List (String × MentionRule))
    (st : Option String × List String) (line : String) :
    Option String × List String :=
  if strStartsWith line "diff --git " then
    let parts := strSplitOnChar '/' (stripB line)
    -- `if not parts: continue` — dead in Python too, `split` never returns []
    if parts.isEmpty then (none, st.2)
    else
      let cur := strIntercalate "/" (parts.take 2)
      let full := strIntercalate "/" parts
      let cur := if strStartsWith cur "src/librustc" then "src/librustc" else cur
      let curO : Option String := if cur == "src/test" then none else some cur
      let tm :=
        if full.toList.length > 0 then
          mentions.foldl (fun tm e =>
            if strStartsWith full e.1 && !tm.contains e.1 then tm ++ [e.1]
            else if strEndsWith e.1 ".rs" && strEndsWith full e.1 && !tm.contains e.1 then
              tm ++ [e.1]
            else tm) st.2
        else st.2
      (curO, tm)
  else st

/-- `get_to_mention` (lines 310-348): scan the diff for matched mention keys
(only when `dirs` is non-empty), then map each key to its rule.  Every
collected key is a key of `mentions`, so the lookup never fails. -/
def get_to_mention (dirs : List (String × List String))
    (mentions : List (String × MentionRule)) (diff : String) : List MentionRule :=
  let keys :=
    if dirs.isEmpty then []
    else ((strSplitOnChar '\n' diff).foldl (mentionScanLine mentions) (none, [])).2
  keys.filterMap (fun k => lookupAssoc mentions k)

/-- First-occurrence deduplication, accumulating onto `acc` in order. -/
def dedupInto (acc : List String) : List String → List String
  | [] => acc
  | x :: xs => if acc.contains x then dedupInto acc xs else dedupInto (acc ++ [x]) xs

/-- The text block one mention contributes to the aggregated comment
(`run_commands`, lines 124-129): the optional message followed by a
`cc`-line over the mention's reviewers with `user` filtered out. -/
def mentionSegment (user : String) (m : MentionRule) : String :=
  (match m.message with
   | some s => s ++ "\n\n"
   | none => "") ++ "cc " ++ strIntercalate "," (m.reviewers.filter (fun x => x != user))

/-- `if len(message) > 0: message += '\n\n'` then append (lines 122-136). -/
def appendPart (message part : String) : String :=
  (if message.toList.length > 0 then message ++ "\n\n" else message) ++ part

/-- The aggregated comment body built by `run_commands` (lines 117-138), or
`none` when nothing is posted.  The `commands` dict keeps distinct command
tokens in first-occurrence order, each mapped to the PR head sha. -/
def run_commands_message (to_mention : List MentionRule) (user sha : String) :
    Option String :=
  if to_mention.isEmpty then none
  else
    let message := to_mention.foldl (fun acc m => appendPart acc (mentionSegment user m)) ""
    let cmds := dedupInto [] (to_mention.filterMap (·.command))
    let message := cmds.foldl (fun acc c => appendPart acc (c ++ (" " ++ sha))) message
    if message.toList.length > 0 then some message else none

/-- The word class behind the `\b` boundary of `reviewer_re` (line 37).
Python 3 `re` on `str` uses the Unicode word class: `[a-zA-Z0-9_]` plus the
non-ASCII Unicode alphanumerics.  The embedding keeps the ASCII part exact
and conservatively counts every non-ASCII character as a word character, so
`wordChar c = false` exactly when `c` is an ASCII non-word character — a
case where Python agrees the boundary holds.  The approximation is
one-sided: the embedded search never reports a match the source regex would
reject; it can only miss a match whose boundary character is a non-ASCII
non-word character (e.g. `€`), and no theorem below covers such inputs. -/
def wordChar (c : Char) : Bool := c.isAlphanum || c == '_' || 0x80 ≤ c.toNat

/-- The `[:\- ]` separator class of `reviewer_re` (line 37). -/
def sepChar (c : Char) : Bool := c == ':' || c == '-' || c == ' '

/-- The `[a-zA-Z0-9\-]` username class of `reviewer_re` (line 37). -/
def nameChar (c : Char) : Bool := c.isAlpha || c.isDigit || c == '-'

/-- Attempt to match `[rR]\?[:\- ]*@([a-zA-Z0-9\-]+)` at the head of the
character list, returning the captured group.  The greedy `[:\- ]*` and
`([a-zA-Z0-9\-]+)` need no backtracking: `'@'` is not a separator and nothing
follows the capture group in the pattern. -/
def matchHere : List Char → Option (List Char)
  | a :: b :: rest =>
    if (a == 'r' || a == 'R') && b == '?' then
      match rest.dropWhile sepChar with
      | d :: rest2 =>
        if d == '@' then
          let name := rest2.takeWhile nameChar
          if name.isEmpty then none else some name
        else none
      | [] => none
    else none
  | _ => none

/-- `reviewer_re.search`: scan left to right and return the first match's
capture group.  `prevWord` tracks whether the previous character was a word
character; the `\b` of the pattern sits before `[rR]`, which is a word
character, so the boundary holds exactly when `prevWord` is false. -/
def searchReviewer : Bool → List Char → Option (List Char)
  | _, [] => none
  | prevWord, c :: rest =>
    match (if prevWord then none else matchHere (c :: rest)) with
    | some name => some name
    | none => searchReviewer (wordChar c) rest

/-- `find_reviewer` (lines 223-230): `None` message gives `None` (the Python
function falls off the end). -/
def find_reviewer : Option String → Option String
  | none => none
  | some msg => (searchReviewer false msg.toList).map (fun cs => String.mk cs)

/-- Boundary sanity check: `é` is a Unicode word character, so the source
regex finds no match in `"ér? @bob"` (`\b` fails between `é` and `r`), and
neither does the embedding. -/
theorem find_reviewer_unicode_boundary :
    find_reviewer (some "ér? @bob") = none := by decide

/-- Truthiness of the Python `reviewer` variable at line 373
(`if not reviewer`): `None` and `""` are falsy. -/
def truthyReviewer : Option String → Bool
  | none => false
  | some s => !s.toList.isEmpty

/-- `review_msg` (lines 188-190). -/
def review_msg (reviewer : Option String) (submitter : String) : String :=
  match reviewer with
  | none => "@" ++ submitter ++ ": no appropriate reviewer found, use r? to override"
  | some r => "r? @" ++ r ++ "\n\n(rust_highfive has picked a reviewer for you, use r? to override)"

/-- `welcome_msg` (lines 177-186). -/
def welcome_msg (reviewer : Option String) (contributing : Option String) : String :=
  let text :=
    match reviewer with
    | none => "@nrc (NB. this repo may be misconfigured)"
    | some r => "@" ++ r ++ " (or someone else)"
  let link :=
    match contributing with
    | some l => if l.toList.isEmpty then "https://github.com/rust-lang/rust/blob/master/CONTRIBUTING.md" else l
    | none => "https://github.com/rust-lang/rust/blob/master/CONTRIBUTING.md"
  "Thanks for the pull request, and welcome! The Rust team is excited to review your changes, and you should hear from " ++ text ++ " soon.\n\nIf any changes to this PR are deemed necessary, please add them as extra commits. This ensures that the reviewer can see what has changed since they last reviewed the code. Due to the way GitHub handles out-of-date commits, this should also make it reasonably obvious what issues have or haven't been addressed. Large or tricky changes may require several passes of review and changes.\n\nPlease see [the contribution instructions](" ++ link ++ ") for more information.\n"

/-- The outward-visible decisions of one `new_pr` run (lines 356-392, the
assignee/comment part; warnings and labels are independent of the claims). -/
structure PrDecision where
  assignee : Option String
  invokedChooseReviewer : Bool
  mentionComment : Option String
  welcomeComment : Option String
  reviewComment : Option String
deriving DecidableEq

/-- The `new_pr` workflow (lines 367-392) as a pure decision function.
External query results are parameters: `diff` is the fetched diff, `isFork`
the repository fork flag, and `newContribQuery` the result the commit-search
would return (line 216); `k` indexes the random draw inside
`choose_reviewer`.  A `choose_reviewer` exception aborts the run
(`Except.error`). -/
def new_pr_decision (repoGroups globalGroups dirs : List (String × List String))
    (mentions : List (String × MentionRule)) (contributing : Option String)
    (integrationUser : String) (assignees : List String) (body : Option String)
    (author headSha diff : String) (k : Nat) (isFork newContribQuery : Bool) :
    Except String PrDecision :=
  if assignees.isEmpty then
    let r0 := find_reviewer body
    let step : Except String (Option String × Bool) :=
      if truthyReviewer r0 then Except.ok (r0, false)
      else (choose_reviewer repoGroups globalGroups dirs diff author k).map
        (fun c => (c, true))
    match step with
    | Except.error e => Except.error e
    | Except.ok (reviewer, post_msg) =>
      let to_mention := get_to_mention dirs mentions diff
      let mentionComment := run_commands_message to_mention integrationUser headSha
      let isNew := if isFork then false else newContribQuery
      Except.ok
        { assignee := reviewer
          invokedChooseReviewer := post_msg
          mentionComment := mentionComment
          welcomeComment := if isNew then some (welcome_msg reviewer contributing) else none
          reviewComment :=
            if isNew then none
            else if post_msg then some (review_msg reviewer author) else none }
  else
    Except.ok
      { assignee := none
        invokedChooseReviewer := false
        mentionComment := none
        welcomeComment := none
        reviewComment := none }

/-! ### Basic facts about the embedded primitives -/

theorem splitOnCharAux_ne_nil (sep : Char) :
    ∀ (l acc : List Char), splitOnCharAux sep l acc ≠ [] := by
  intro l
  induction l with
  | nil => intro acc; simp [splitOnCharAux]
  | cons c rest ih =>
    intro acc
    by_cases h : c == sep
    · simp [splitOnCharAux, h]
    · simp only [splitOnCharAux, h]
      exact ih (c :: acc)

theorem strSplitOnChar_ne_nil (sep : Char) (s : String) :
    strSplitOnChar sep s ≠ [] :=
  splitOnCharAux_ne_nil sep s.toList []

theorem hasKey_append_left {α : Type} (l l2 : List (String × α)) (k : String)
    (h : hasKey l k = true) : hasKey (l ++ l2) k = true := by
  induction l with
  | nil => simp [hasKey, List.find?] at h
  | cons g rest ih =>
    by_cases hg : g.1 == k
    · simp [hasKey, List.find?_cons, hg]
    · simp only [hasKey, List.find?_cons, hg, List.cons_append] at *
      exact ih h

theorem mergeGroups_overlap :
    ∀ (globalGroups groups : List (String × List String)) (n : String),
    hasKey groups n = true → hasKey globalGroups n = true →
    ∃ e, mergeGroups groups globalGroups = Except.error e := by
  intro globalGroups
  induction globalGroups with
  | nil => intro groups n _ h2; simp [hasKey, List.find?] at h2
  | cons g rest ih =>
    intro groups n h1 h2
    obtain ⟨name, people⟩ := g
    by_cases hk : hasKey groups name
    · exact ⟨"group " ++ name ++ " overlaps with _global.json",
        by simp [mergeGroups, hk]⟩
    · have hne : (name == n) = false := by
        by_contra hcon
        simp only [Bool.not_eq_false, beq_iff_eq] at hcon
        subst hcon
        exact absurd h1 (by simp [hk])
      have h2' : hasKey rest n = true := by
        simpa [hasKey, List.find?_cons, hne] using h2
      have h1' : hasKey (groups ++ [(name, people)]) n = true :=
        hasKey_append_left groups [(name, people)] n h1
      obtain ⟨e, he⟩ := ih (groups ++ [(name, people)]) n h1' h2'
      exact ⟨e, by simp [mergeGroups, hk, he]⟩

/-- C8: if the repository groups and the global groups share a group name, the
merge step of `choose_reviewer` (the `assert name not in groups` at line 242)
fails with a configuration error, and the whole reviewer selection aborts with
that error instead of letting either definition win. -/
theorem c8_merge_overlap_fatal (repoGroups globalGroups dirs : List (String × List String))
    (diff exclude : String) (n : String)
    (h1 : hasKey repoGroups n = true) (h2 : hasKey globalGroups n = true) :
    (∃ e, mergeGroups repoGroups globalGroups = Except.error e) ∧
    ∃ e, choose_reviewer_list repoGroups globalGroups dirs diff exclude = Except.error e := by
  obtain ⟨e, he⟩ := mergeGroups_overlap globalGroups repoGroups n h1 h2
  refine ⟨⟨e, he⟩, e, ?_⟩
  simp [choose_reviewer_list, choose_candidates, he, afterExclude]

/-- C8 witness: the repository group `all` collides with a global group
`all`; the selection cannot succeed. -/
theorem c8_merge_overlap_fatal_witness :
    choose_reviewer_list [("all", ["@a"])] [("all", ["@b"])] [] "" "x" ≠
      Except.ok ["b"] := by
  obtain ⟨e, he⟩ := (c8_merge_overlap_fatal [("all", ["@a"])] [("all", ["@b"])]
    [] "" "x" "all" (by decide) (by decide)).2
  rw [he]
  simp

/-! ### C5: the winning directory -/

theorem foldMax_cases :
    ∀ (l : List (String × Nat)) (acc : Option String × Nat),
    (l.foldl (fun acc dc => if dc.2 > acc.2 then (some dc.1, dc.2) else acc) acc = acc ∧
      ∀ q ∈ l, q.2 ≤ acc.2) ∨
    (∃ l1 p l2, l = l1 ++ p :: l2 ∧
      l.foldl (fun acc dc => if dc.2 > acc.2 then (some dc.1, dc.2) else acc) acc = (some p.1, p.2) ∧
      acc.2 < p.2 ∧ (∀ q ∈ l1, q.2 < p.2) ∧ (∀ q ∈ l2, q.2 ≤ p.2)) := by
  intro l
  induction l with
  | nil => intro acc; left; exact ⟨rfl, by simp⟩
  | cons p l ih =>
    intro acc
    by_cases hp : p.2 > acc.2
    · rcases ih (some p.1, p.2) with ⟨heq, hall⟩ | ⟨l1, q, l2, hdec, heq, hlt, h1, h2⟩
      · right
        refine ⟨[], p, l, by simp, ?_, hp, by simp, ?_⟩
        · simpa [List.foldl_cons, hp] using heq
        · simpa using hall
      · right
        refine ⟨p :: l1, q, l2, by simp [hdec], ?_, lt_trans hp hlt, ?_, h2⟩
        · simpa [List.foldl_cons, hp] using heq
        · intro r hr
          rcases List.mem_cons.mp hr with rfl | hr'
          · exact hlt
          · exact h1 r hr'
    · push_neg at hp
      rcases ih acc with ⟨heq, hall⟩ | ⟨l1, q, l2, hdec, heq, hlt, h1, h2⟩
      · left
        constructor
        · simpa [List.foldl_cons, Nat.not_lt.mpr hp] using heq
        · intro r hr
          rcases List.mem_cons.mp hr with rfl | hr'
          · exact hp
          · exact hall r hr'
      · right
        refine ⟨p :: l1, q, l2, by simp [hdec], ?_, hlt, ?_, h2⟩
        · simpa [List.foldl_cons, Nat.not_lt.mpr hp] using heq
        · intro r hr
          rcases List.mem_cons.mp hr with rfl | hr'
          · exact lt_of_le_of_lt hp hlt
          · exact h1 r hr'

/-- C5: with a non-empty `dirs` table, the winning directory of the diff scan
is an entry of the `counts` table that strictly beats every earlier entry and
is not beaten by any later entry (the "first to reach the maximum" rule of the
scan at lines 272-277), its count is positive, and the result is `None`
exactly when no tracked directory accumulated any added line. -/
theorem c5_winning_directory (dirs : List (String × List String)) (diff : String)
    (hdirs : dirs ≠ []) :
    (∀ d, diffMostChanged dirs diff = some d →
      ∃ c l1 l2, scanCounts diff = l1 ++ (d, c) :: l2 ∧ 0 < c ∧
        (∀ q ∈ l1, q.2 < c) ∧ (∀ q ∈ l2, q.2 ≤ c)) ∧
    (diffMostChanged dirs diff = none ↔ ∀ q ∈ scanCounts diff, q.2 = 0) := by
  have hempty : dirs.isEmpty = false := by
    cases dirs with
    | nil => exact absurd rfl hdirs
    | cons a l => rfl
  have hmc : diffMostChanged dirs diff = findMostChanged (scanCounts diff) := by
    simp [diffMostChanged, hempty]
  rcases foldMax_cases (scanCounts diff) (none, 0) with ⟨heq, hall⟩ |
    ⟨l1, p, l2, hdec, heq, hlt, h1, h2⟩
  · constructor
    · intro d hd
      rw [hmc] at hd
      simp [findMostChanged, heq] at hd
    · rw [hmc]
      constructor
      · intro _ q hq
        exact Nat.le_zero.mp (hall q hq)
      · intro _
        simp [findMostChanged, heq]
  · have hres : diffMostChanged dirs diff = some p.1 := by
      rw [hmc]; simp [findMostChanged, heq]
    constructor
    · intro d hd
      rw [hres] at hd
      have hdp : p.1 = d := Option.some.inj hd
      subst hdp
      exact ⟨p.2, l1, l2, by simpa using hdec, hlt, h1, h2⟩
    · constructor
      · intro hnone
        rw [hres] at hnone
        exact absurd hnone (by simp)
      · intro hzero
        have hpmem : p ∈ scanCounts diff := by
          rw [hdec]; exact List.mem_append_right _ (List.mem_cons_self p l2)
        have hp0 := hzero p hpmem
        omega

/-- C5 witness: a diff in which no tracked directory gains an added line
yields no winning directory. -/
theorem c5_winning_directory_witness :
    diffMostChanged [("x", ["@u"])] "" = none :=
  (c5_winning_directory [("x", ["@u"])] "" (by decide)).2.mpr (by decide)

/-! ### C6: short paths in file headers -/

/-- C6 counterexample: the stripped path `foo` has a single path segment
(fewer than two), yet the added line that follows IS attributed to a tracked
directory, namely `"foo"` itself — the scan does not skip it. -/
theorem c6_counterexample :
    (strSplitOnChar '/' (stripB "diff --git a/foo b/foo")).length = 1 ∧
    scanCounts "diff --git a/foo b/foo\n+x" = [("foo", 1)] := by decide

/-- C6 (amended): only a header whose stripped path is empty (zero segments)
attributes nothing: `cur_dir` becomes the falsy `""`, no `counts` entry is
created, and subsequent added lines leave the table unchanged; no error is
raised.  A one-segment path is tracked as that segment itself
(see the counterexample). -/
theorem c6_empty_path_untracked :
    (∀ (st : Option String × List (String × Nat)) (line : String),
      strStartsWith line "diff --git " = true → stripB line = "" →
      scanLine st line = (some "", st.2)) ∧
    (∀ (counts : List (String × Nat)) (line : String),
      strStartsWith line "diff --git " = false →
      scanLine (some "", counts) line = (some "", counts)) := by
  constructor
  · intro st line h1 h2
    simp only [scanLine, h1, if_true, h2]
    norm_num [strSplitOnChar, splitOnCharAux, strIntercalate, strStartsWith,
      String.toList, List.isPrefixOf]
    refine ⟨fun h => absurd h (by decide), ?_⟩
    rw [if_neg (by decide)]
    simp
  · intro counts line h
    simp [scanLine, h, truthyStr, String.toList]

/-- C6 witness: a concrete empty-path header followed by an added line; the
scan tracks nothing and raises nothing. -/
theorem c6_empty_path_untracked_witness :
    scanLine ((none : Option String), ([] : List (String × Nat)))
        "diff --git a/ b/" = (some "", []) ∧
    scanLine (some "", ([] : List (String × Nat))) "+x" = (some "", []) :=
  ⟨c6_empty_path_untracked.1 (none, []) "diff --git a/ b/" (by decide) (by decide),
   c6_empty_path_untracked.2 [] "+x" (by decide)⟩

/-! ### C1: author exclusion -/

theorem chooseFrom_mem (revs : List String) (k : Nat) (a : String)
    (h : chooseFrom revs k = some a) : a ∈ revs := by
  by_cases he : revs.isEmpty
  · simp [chooseFrom, he] at h
  · simp only [chooseFrom, he, if_false, Bool.false_eq_true] at h
    exact List.get?_mem h

theorem pyRemove_not_mem (e : String) :
    ∀ l : List String, l.count e ≤ 1 → e ∉ pyRemove l e := by
  intro l
  induction l with
  | nil => intro _; simp [pyRemove]
  | cons x xs ih =>
    intro hcount
    by_cases hx : x == e
    · have hxe : x = e := beq_iff_eq.mp hx
      subst hxe
      simp only [pyRemove, beq_self_eq_true, if_true]
      have h0 : xs.count x = 0 := by
        have hcc := List.count_cons_self x xs
        omega
      exact List.count_eq_zero.mp h0
    · have hxe : x ≠ e := by simpa using hx
      simp only [pyRemove, hx, if_false, Bool.false_eq_true]
      intro hmem
      rcases List.mem_cons.mp hmem with rfl | hmem'
      · exact hxe rfl
      · have hc : xs.count e ≤ 1 := by
          have hcc := List.count_cons_of_ne (Ne.symm hxe) xs
          omega
        exact ih hc hmem'

theorem excluded_not_mem (l : List String) (e : String) (h : l.count e ≤ 1) :
    e ∉ (if l.contains e then pyRemove l e else l) := by
  by_cases hc : l.contains e
  · have hm : e ∈ l := by simpa using hc
    simpa [hm] using pyRemove_not_mem e l h
  · have hm : e ∉ l := by simpa using hc
    simp [hm]

/-- C1 (amended): `reviewers.remove(exclude)` (line 302) removes only the
first occurrence of the author.  Whenever the author occurs at most once in
the expanded candidate list, the drawn reviewer is never the author; in
particular, if the author is the only candidate, the result is no reviewer.
(When the author occurs more than once they can still be drawn — see the
counterexample.) -/
theorem c1_author_excluded_once
    (repoGroups globalGroups dirs : List (String × List String))
    (diff author : String) (k : Nat) (expanded : List String)
    (hok : choose_candidates repoGroups globalGroups dirs diff = Except.ok expanded)
    (hcount : expanded.count author ≤ 1) :
    choose_reviewer repoGroups globalGroups dirs diff author k ≠ Except.ok (some author) ∧
    (expanded = [author] →
      choose_reviewer repoGroups globalGroups dirs diff author k = Except.ok none) := by
  have hlist : choose_reviewer_list repoGroups globalGroups dirs diff author =
      Except.ok (if expanded.contains author then pyRemove expanded author else expanded) := by
    simp [choose_reviewer_list, hok, afterExclude]
  constructor
  · intro hcon
    simp only [choose_reviewer, hlist, Except.map] at hcon
    have hdrawn : chooseFrom
        (if expanded.contains author then pyRemove expanded author else expanded) k =
        some author := by
      exact Except.ok.inj hcon
    exact excluded_not_mem expanded author hcount
      (chooseFrom_mem _ k author hdrawn)
  · intro he
    subst he
    have h1 : ([author].contains author) = true := by simp
    have h2 : pyRemove [author] author = [] := by simp [pyRemove]
    simp [choose_reviewer, hlist, h1, h2, chooseFrom, Except.map]

/-- C1 counterexample: the author `a` appears twice in the expanded pool
(`groups['all'] = ["@a", "@a", "@b"]`); `remove` deletes one occurrence, and
the draw at index 1 returns the author of the PR. -/
theorem c1_counterexample :
    choose_reviewer [("all", ["@a", "@a", "@b"])] [] [] "" "a" 1 =
      Except.ok (some "a") := by decide

/-- C1 witness: the author `a` is the only candidate; the result is no
reviewer. -/
theorem c1_author_excluded_once_witness :
    choose_reviewer [("all", ["@a"])] [] [] "" "a" 0 = Except.ok none :=
  (c1_author_excluded_once [("all", ["@a"])] [] [] "" "a" 0 ["a"]
    (by decide) (by decide)).2 rfl

/-! ### Termination and cycle behaviour of the expansion loop -/

/-- Sum of the member-list sizes of the groups not yet seen. -/
def sumUnseen (groups : List (String × List String)) (seen : List String) : Nat :=
  ((groups.filter (fun g => !seen.contains g.1)).map (fun g => g.2.length)).sum

theorem expandMeasure_eq (groups : List (String × List String))
    (seen pot : List String) :
    expandMeasure groups seen pot = pot.length + sumUnseen groups seen := rfl

theorem filter_unseen_cons_out (seen : List String)
    (g : String × List String) (rest : List (String × List String))
    (hg : g.1 ∈ seen) :
    List.filter (fun g => !seen.contains g.1) (g :: rest) =
      List.filter (fun g => !seen.contains g.1) rest := by
  simp [List.filter_cons, hg]

theorem filter_unseen_cons_in (seen : List String)
    (g : String × List String) (rest : List (String × List String))
    (hg : g.1 ∉ seen) :
    List.filter (fun g => !seen.contains g.1) (g :: rest) =
      g :: List.filter (fun g => !seen.contains g.1) rest := by
  simp [List.filter_cons, hg]

theorem sumUnseen_mono (seen seen' : List String)
    (hsub : ∀ x : String, x ∈ seen → x ∈ seen') :
    ∀ groups : List (String × List String),
    sumUnseen groups seen' ≤ sumUnseen groups seen := by
  intro groups
  induction groups with
  | nil => simp [sumUnseen]
  | cons g rest ih =>
    by_cases hg : g.1 ∈ seen'
    · rw [sumUnseen, filter_unseen_cons_out seen' g rest hg]
      by_cases hg2 : g.1 ∈ seen
      · rw [sumUnseen, filter_unseen_cons_out seen g rest hg2]
        exact ih
      · rw [sumUnseen, filter_unseen_cons_in seen g rest hg2]
        simp only [List.map_cons, List.sum_cons]
        exact le_trans ih (Nat.le_add_left _ _)
    · have hg2 : g.1 ∉ seen := fun h => hg (hsub g.1 h)
      rw [sumUnseen, filter_unseen_cons_in seen' g rest hg,
        sumUnseen, filter_unseen_cons_in seen g rest hg2]
      simp only [List.map_cons, List.sum_cons]
      exact Nat.add_le_add_left ih g.2.length

theorem sumUnseen_expand (groups : List (String × List String))
    (seen : List String) (p : String) (members : List String)
    (hlk : lookupAssoc groups p = some members)
    (hns : p ∉ seen) :
    members.length + sumUnseen groups (seen ++ [p]) ≤ sumUnseen groups seen := by
  have hmono : ∀ x : String, x ∈ seen → x ∈ seen ++ [p] := by
    intro x hx
    exact List.mem_append_left _ hx
  induction groups with
  | nil => simp [lookupAssoc, List.find?] at hlk
  | cons g rest ih =>
    by_cases hg : g.1 = p
    · have hmem : members = g.2 := by
        have hb : (g.1 == p) = true := beq_iff_eq.mpr hg
        simp [lookupAssoc, List.find?_cons, hb] at hlk
        exact hlk.symm
      subst hmem
      have hseenG : g.1 ∉ seen := by rw [hg]; exact hns
      have hseenG' : g.1 ∈ seen ++ [p] := by
        rw [hg]; exact List.mem_append_right _ (List.mem_singleton_self p)
      simp only [sumUnseen]
      rw [filter_unseen_cons_in seen g rest hseenG,
        filter_unseen_cons_out (seen ++ [p]) g rest hseenG']
      simp only [List.map_cons, List.sum_cons]
      have hrest := sumUnseen_mono seen (seen ++ [p]) hmono rest
      simp only [sumUnseen] at hrest
      omega
    · have hb : (g.1 == p) = false := by simpa using hg
      have hlk' : lookupAssoc rest p = some members := by
        simpa [lookupAssoc, List.find?_cons, hb] using hlk
      have hrec := ih hlk'
      by_cases hseenG : g.1 ∈ seen
      · have hseenG' : g.1 ∈ seen ++ [p] := hmono g.1 hseenG
        simp only [sumUnseen]
        rw [filter_unseen_cons_out seen g rest hseenG,
          filter_unseen_cons_out (seen ++ [p]) g rest hseenG']
        simpa [sumUnseen] using hrec
      · have hseenG' : g.1 ∉ seen ++ [p] := by
          intro hcon
          rcases List.mem_append.mp hcon with h | h
          · exact hseenG h
          · exact hg (List.mem_singleton.mp h)
        simp only [sumUnseen]
        rw [filter_unseen_cons_in seen g rest hseenG,
          filter_unseen_cons_in (seen ++ [p]) g rest hseenG']
        simp only [List.map_cons, List.sum_cons]
        simp only [sumUnseen] at hrec
        omega

theorem andCoreFalse (c : Bool) (p : String) (h : ¬(c = true ∧ p = "core")) :
    (c && (p == "core")) = false := by
  rcases Bool.eq_false_or_eq_true c with hc1 | hc1
  · have h2 : p ≠ "core" := fun hp => h ⟨hc1, hp⟩
    simp [hc1, h2]
  · simp [hc1]

theorem expandLoop_total_of_seen (groups : List (String × List String)) (c : Bool) :
    ∀ (fuel : Nat) (pot revs seen : List String),
    (c = false ∨ "core" ∈ seen) →
    expandMeasure groups seen pot ≤ fuel →
    (expandLoop groups c fuel pot revs seen).isSome = true := by
  intro fuel
  induction fuel with
  | zero =>
    intro pot revs seen _ hm
    cases pot with
    | nil => simp [expandLoop]
    | cons p rest =>
      rw [expandMeasure_eq] at hm
      simp at hm
  | succ f ih =>
    intro pot revs seen hc hm
    cases pot with
    | nil => simp [expandLoop]
    | cons p rest =>
      rw [expandMeasure_eq, List.length_cons] at hm
      simp only [expandLoop]
      by_cases hat : strStartsWith p "@"
      · simp only [hat, if_true]
        apply ih _ _ _ hc
        rw [expandMeasure_eq]
        omega
      · simp only [hat, Bool.false_eq_true, if_false]
        cases hlk : lookupAssoc groups p with
        | none =>
          simp only [hlk]
          apply ih _ _ _ hc
          rw [expandMeasure_eq]
          omega
        | some members =>
          simp only [hlk]
          by_cases hseen : p ∈ seen
          · have hb : seen.contains p = true := by simpa using hseen
            simp only [hb, if_true]
            simp
          · have hb : seen.contains p = false := by simpa using hseen
            have hfalse : ¬(c = true ∧ p = "core") := by
              rintro ⟨hct, hpc⟩
              rcases hc with hc | hc
              · rw [hct] at hc; cases hc
              · exact hseen (hpc ▸ hc)
            have hbc := andCoreFalse c p hfalse
            simp only [hb, hbc, Bool.false_eq_true, if_false]
            have hexp := sumUnseen_expand groups seen p members hlk hseen
            apply ih
            · rcases hc with hc | hc
              · exact Or.inl hc
              · exact Or.inr (List.mem_append_left _ hc)
            · rw [expandMeasure_eq] at *
              simp only [List.length_append, List.length_reverse]
              omega

theorem expandLoop_total (groups : List (String × List String)) (c : Bool) :
    ∀ (fuel : Nat) (pot revs seen : List String),
    2 * expandMeasure groups seen pot + 1 ≤ fuel →
    (expandLoop groups c fuel pot revs seen).isSome = true := by
  intro fuel
  induction fuel with
  | zero => intro pot revs seen hm; omega
  | succ f ih =>
    intro pot revs seen hm
    cases pot with
    | nil => simp [expandLoop]
    | cons p rest =>
      rw [expandMeasure_eq, List.length_cons] at hm
      simp only [expandLoop]
      by_cases hat : strStartsWith p "@"
      · simp only [hat, if_true]
        apply ih
        rw [expandMeasure_eq]
        omega
      · simp only [hat, Bool.false_eq_true, if_false]
        cases hlk : lookupAssoc groups p with
        | none =>
          simp only [hlk]
          apply ih
          rw [expandMeasure_eq]
          omega
        | some members =>
          simp only [hlk]
          by_cases hseen : p ∈ seen
          · have hb : seen.contains p = true := by simpa using hseen
            simp only [hb, if_true]
            simp
          · have hb : seen.contains p = false := by simpa using hseen
            have hexp := sumUnseen_expand groups seen p members hlk hseen
            by_cases hcore : c = true ∧ p = "core"
            · have hbc : (c && (p == "core")) = true := by
                simp [hcore.1, hcore.2]
              simp only [hb, Bool.false_eq_true, if_false, hbc, if_true]
              apply expandLoop_total_of_seen groups c f (rest ++ rest) revs (seen ++ [p])
              · right
                rw [hcore.2]
                exact List.mem_append_right _ (List.mem_singleton_self _)
              · rw [expandMeasure_eq] at *
                simp only [List.length_append]
                omega
            · have hbc := andCoreFalse c p hcore
              simp only [hb, hbc, Bool.false_eq_true, if_false]
              apply ih
              rw [expandMeasure_eq] at *
              simp only [List.length_append, List.length_reverse]
              omega

/-- Popping a token that names an already-seen group fails the
`assert p not in seen` (line 296) immediately. -/
theorem expandLoop_pop_seen_group (groups : List (String × List String))
    (c : Bool) (fuel : Nat) (p : String) (rest revs seen : List String)
    (members : List String)
    (h1 : strStartsWith p "@" = false)
    (h2 : lookupAssoc groups p = some members)
    (h3 : p ∈ seen) :
    expandLoop groups c (fuel + 1) (p :: rest) revs seen =
      some (Except.error ("group " ++ p ++ " refers to itself")) := by
  have hb : seen.contains p = true := by simpa using h3
  simp only [expandLoop, h1, Bool.false_eq_true, if_false, h2, hb, if_true]

/-- While the token `"all"` sits in the work list (and is a group name), the
expansion can never finish normally: `"all"` is pre-seeded into `seen`, so
popping it fails the cycle assertion. -/
theorem expandLoop_all_in_pot_not_ok (groups : List (String × List String))
    (c : Bool) :
    ∀ (fuel : Nat) (pot revs seen : List String),
    "all" ∈ seen → "all" ∈ pot → (lookupAssoc groups "all").isSome = true →
    ∀ l, expandLoop groups c fuel pot revs seen ≠ some (Except.ok l) := by
  intro fuel
  induction fuel with
  | zero =>
    intro pot revs seen _ hpot _ l
    cases pot with
    | nil => simp at hpot
    | cons p rest => simp [expandLoop]
  | succ f ih =>
    intro pot revs seen hseen hpot hlk l
    cases pot with
    | nil => simp at hpot
    | cons p rest =>
      by_cases hp : p = "all"
      · subst hp
        obtain ⟨members, hm⟩ := Option.isSome_iff_exists.mp hlk
        rw [expandLoop_pop_seen_group groups c f "all" rest revs seen members
          (by decide) hm hseen]
        simp
      · have hrest : "all" ∈ rest := by
          rcases List.mem_cons.mp hpot with h | h
          · exact absurd h.symm hp
          · exact h
        simp only [expandLoop]
        by_cases hat : strStartsWith p "@"
        · simp only [hat, if_true]
          exact ih rest _ seen hseen hrest hlk l
        · simp only [hat, Bool.false_eq_true, if_false]
          cases hlkp : lookupAssoc groups p with
          | none => exact ih rest revs seen hseen hrest hlk l
          | some members =>
            by_cases hseenp : p ∈ seen
            · have hb : seen.contains p = true := by simpa using hseenp
              simp only [hb, if_true]
              simp
            · have hb : seen.contains p = false := by simpa using hseenp
              have hseen2 : "all" ∈ seen ++ [p] := List.mem_append_left _ hseen
              by_cases hcore : c = true ∧ p = "core"
              · have hbc : (c && (p == "core")) = true := by
                  simp [hcore.1, hcore.2]
                simp only [hb, hbc, Bool.false_eq_true, if_false, if_true]
                exact ih (rest ++ rest) revs (seen ++ [p]) hseen2
                  (List.mem_append_left _ hrest) hlk l
              · have hbc := andCoreFalse c p hcore
                simp only [hb, hbc, Bool.false_eq_true, if_false]
                exact ih (members.reverse ++ rest) revs (seen ++ [p]) hseen2
                  (List.mem_append_right _ hrest) hlk l

/-! ### C3 and C10: cycle handling -/

/-- C3 counterexample: the configuration contains the self-referential group
`g`, but `g` is never reached from `groups['all'] = ["@a"]`, so
`choose_reviewer` finishes normally with no fatal error — the cycle is not
rejected. -/
theorem c3_counterexample :
    groupsHaveCycle [("all", ["@a"]), ("g", ["g"])] = true ∧
    choose_reviewer_list [("all", ["@a"]), ("g", ["g"])] [] [] "" "x" =
      Except.ok ["a"] := by decide

/-- C3 (amended): the expansion never loops forever — with fuel at least
`2 * expandMeasure + 1` (the bound the embedding passes) it always produces a
result; a cyclic chain is rejected by the `assert` exactly when the cycle is
reached: popping an already-expanded group is a fatal error, and a
self-referential group reachable from `groups['all']` aborts the whole
selection.  (A cyclic group that is never reached is not detected — see the
counterexample.) -/
theorem c3_reached_cycles_fatal :
    (∀ (groups : List (String × List String)) (c : Bool) (fuel : Nat)
       (pot revs seen : List String),
       2 * expandMeasure groups seen pot + 1 ≤ fuel →
       (expandLoop groups c fuel pot revs seen).isSome = true) ∧
    (∀ (groups : List (String × List String)) (c : Bool) (fuel : Nat)
       (p : String) (rest revs seen members : List String),
       strStartsWith p "@" = false → lookupAssoc groups p = some members →
       p ∈ seen →
       expandLoop groups c (fuel + 1) (p :: rest) revs seen =
         some (Except.error ("group " ++ p ++ " refers to itself"))) ∧
    choose_reviewer_list [("all", ["g"]), ("g", ["g"])] [] [] "" "x" =
      Except.error "group g refers to itself" := by
  refine ⟨?_, ?_, by decide⟩
  · intro groups c fuel pot revs seen hm
    exact expandLoop_total groups c fuel pot revs seen hm
  · intro groups c fuel p rest revs seen members h1 h2 h3
    exact expandLoop_pop_seen_group groups c fuel p rest revs seen members h1 h2 h3

/-- C3 witness: the second conjunct applied to a concrete state — re-popping
the expanded group `g` raises the fatal error. -/
theorem c3_reached_cycles_fatal_witness :
    expandLoop [("all", ["g"]), ("g", ["g"])] false (2 + 1) ["g"] []
        ["all", "g"] = some (Except.error "group g refers to itself") :=
  c3_reached_cycles_fatal.2.1 [("all", ["g"]), ("g", ["g"])] false 2 "g" [] []
    ["all", "g"] ["g"] (by decide) (by decide) (by decide)

/-- C10: each group is expanded at most once per selection.  Popping a
group-name token already in `seen` raises the fatal cycle error, even in a
diamond (the acyclic configuration `all → x → c`, `all → y → c` aborts when
`c` is reached the second time), and any alias that references `all` can
never let the expansion finish normally, because `seen` is seeded with
`"all"`. -/
theorem c10_group_expanded_at_most_once :
    (∀ (groups : List (String × List String)) (c : Bool) (fuel : Nat)
       (p : String) (rest revs seen members : List String),
       strStartsWith p "@" = false → lookupAssoc groups p = some members →
       p ∈ seen →
       expandLoop groups c (fuel + 1) (p :: rest) revs seen =
         some (Except.error ("group " ++ p ++ " refers to itself"))) ∧
    (∀ (groups : List (String × List String)) (c : Bool) (fuel : Nat)
       (pot revs seen : List String),
       "all" ∈ seen → "all" ∈ pot → (lookupAssoc groups "all").isSome = true →
       ∀ l, expandLoop groups c fuel pot revs seen ≠ some (Except.ok l)) ∧
    (groupsHaveCycle [("all", ["x", "y"]), ("x", ["c"]), ("y", ["c"]), ("c", ["@u"])] = false ∧
     choose_reviewer_list [("all", ["x", "y"]), ("x", ["c"]), ("y", ["c"]), ("c", ["@u"])]
       [] [] "" "z" = Except.error "group c refers to itself") := by
  refine ⟨?_, ?_, by decide⟩
  · intro groups c fuel p rest revs seen members h1 h2 h3
    exact expandLoop_pop_seen_group groups c fuel p rest revs seen members h1 h2 h3
  · intro groups c fuel pot revs seen h1 h2 h3
    exact expandLoop_all_in_pot_not_ok groups c fuel pot revs seen h1 h2 h3

/-- C10 witness: an alias referencing `all` (here from the work list itself)
can never produce a normal result. -/
theorem c10_group_expanded_at_most_once_witness :
    expandLoop [("all", ["@a"])] false 5 ["all"] [] ["all"] ≠
      some (Except.ok ["a"]) :=
  c10_group_expanded_at_most_once.2.1 [("all", ["@a"])] false 5
    ["all"] [] ["all"] (by decide) (by decide) (by decide) ["a"]

/-! ### C4: acyclic structures and the shape of the expanded list -/

/-- All member tokens of the groups not yet seen. -/
def unseenTokens (groups : List (String × List String)) (seen : List String) :
    List String :=
  ((groups.filter (fun g => !seen.contains g.1)).map (fun g => g.2)).flatten

theorem unseenTokens_cons_out (seen : List String) (g : String × List String)
    (rest : List (String × List String)) (hg : g.1 ∈ seen) :
    unseenTokens (g :: rest) seen = unseenTokens rest seen := by
  simp [unseenTokens, List.filter_cons, hg]

theorem unseenTokens_cons_in (seen : List String) (g : String × List String)
    (rest : List (String × List String)) (hg : g.1 ∉ seen) :
    unseenTokens (g :: rest) seen = g.2 ++ unseenTokens rest seen := by
  simp [unseenTokens, List.filter_cons, hg]

theorem count_unseen_mono (seen seen' : List String) (t : String)
    (hsub : ∀ x : String, x ∈ seen → x ∈ seen') :
    ∀ groups : List (String × List String),
    (unseenTokens groups seen').count t ≤ (unseenTokens groups seen).count t := by
  intro groups
  induction groups with
  | nil => simp [unseenTokens]
  | cons g rest ih =>
    by_cases hg : g.1 ∈ seen'
    · rw [unseenTokens_cons_out seen' g rest hg]
      by_cases hg2 : g.1 ∈ seen
      · rw [unseenTokens_cons_out seen g rest hg2]
        exact ih
      · rw [unseenTokens_cons_in seen g rest hg2, List.count_append]
        omega
    · have hg2 : g.1 ∉ seen := fun h => hg (hsub g.1 h)
      rw [unseenTokens_cons_in seen' g rest hg, unseenTokens_cons_in seen g rest hg2,
        List.count_append, List.count_append]
      omega

theorem count_unseen_expand (groups : List (String × List String))
    (seen : List String) (p t : String) (members : List String)
    (hlk : lookupAssoc groups p = some members)
    (hns : p ∉ seen) :
    members.count t + (unseenTokens groups (seen ++ [p])).count t ≤
      (unseenTokens groups seen).count t := by
  have hmono : ∀ x : String, x ∈ seen → x ∈ seen ++ [p] := by
    intro x hx
    exact List.mem_append_left _ hx
  induction groups with
  | nil => simp [lookupAssoc, List.find?] at hlk
  | cons g rest ih =>
    by_cases hg : g.1 = p
    · have hmem : members = g.2 := by
        have hb : (g.1 == p) = true := beq_iff_eq.mpr hg
        simp [lookupAssoc, List.find?_cons, hb] at hlk
        exact hlk.symm
      subst hmem
      have hseenG : g.1 ∉ seen := by rw [hg]; exact hns
      have hseenG' : g.1 ∈ seen ++ [p] := by
        rw [hg]; exact List.mem_append_right _ (List.mem_singleton_self p)
      rw [unseenTokens_cons_in seen g rest hseenG,
        unseenTokens_cons_out (seen ++ [p]) g rest hseenG', List.count_append]
      have hrest := count_unseen_mono seen (seen ++ [p]) t hmono rest
      omega
    · have hb : (g.1 == p) = false := by simpa using hg
      have hlk' : lookupAssoc rest p = some members := by
        simpa [lookupAssoc, List.find?_cons, hb] using hlk
      have hrec := ih hlk'
      by_cases hseenG : g.1 ∈ seen
      · have hseenG' : g.1 ∈ seen ++ [p] := hmono g.1 hseenG
        rw [unseenTokens_cons_out seen g rest hseenG,
          unseenTokens_cons_out (seen ++ [p]) g rest hseenG']
        exact hrec
      · have hseenG' : g.1 ∉ seen ++ [p] := by
          intro hcon
          rcases List.mem_append.mp hcon with h | h
          · exact hseenG h
          · exact hg (List.mem_singleton.mp h)
        rw [unseenTokens_cons_in seen g rest hseenG,
          unseenTokens_cons_in (seen ++ [p]) g rest hseenG',
          List.count_append, List.count_append]
        omega

theorem count_unseen_le_join (groups : List (String × List String))
    (seen : List String) (t : String) :
    (unseenTokens groups seen).count t ≤
      ((groups.map (fun g => g.2)).flatten).count t := by
  induction groups with
  | nil => simp [unseenTokens]
  | cons g rest ih =>
    by_cases hg : g.1 ∈ seen
    · rw [unseenTokens_cons_out seen g rest hg]
      simp only [List.map_cons, List.flatten_cons, List.count_append]
      omega
    · rw [unseenTokens_cons_in seen g rest hg]
      simp only [List.map_cons, List.flatten_cons, List.count_append]
      omega

theorem mem_unseen_mem_join (groups : List (String × List String))
    (seen : List String) (t : String) (h : t ∈ unseenTokens groups seen) :
    t ∈ (groups.map (fun g => g.2)).flatten := by
  have h1 : (unseenTokens groups seen).count t ≠ 0 := by
    intro hc
    exact (List.count_eq_zero.mp hc) h
  have h2 := count_unseen_le_join groups seen t
  by_contra hcon
  rw [List.count_eq_zero.mpr hcon] at h2
  omega

theorem lookupAssoc_mem {α : Type} (l : List (String × α)) (k : String) (v : α)
    (h : lookupAssoc l k = some v) : (k, v) ∈ l := by
  simp only [lookupAssoc, Option.map_eq_some'] at h
  obtain ⟨pair, hfind, hv⟩ := h
  have hmem := List.mem_of_find?_eq_some hfind
  have hpred := List.find?_some hfind
  have hk : pair.1 = k := beq_iff_eq.mp hpred
  have : pair = (k, v) := by
    cases pair
    simp only at hk hv
    rw [hk, hv]
  rw [this] at hmem
  exact hmem

theorem mem_iff_count_ne (l : List String) (t : String) :
    t ∈ l ↔ l.count t ≠ 0 := by
  constructor
  · intro h hc
    exact (List.count_eq_zero.mp hc) h
  · intro h
    by_contra hc
    exact h (List.count_eq_zero.mpr hc)

theorem count_cons_le (p t : String) (l : List String) :
    l.count t ≤ (p :: l).count t := by
  rw [List.count_cons]
  exact Nat.le_add_right _ _

theorem count_head_rest_zero (p : String) (l : List String)
    (h : (p :: l).count p ≤ 1) : l.count p = 0 := by
  have hcc := List.count_cons_self p l
  omega

theorem expandLoop_linear_ok (groups : List (String × List String)) :
    ∀ (fuel : Nat) (pot revs seen : List String),
    (∀ t, (lookupAssoc groups t).isSome = true →
      (pot ++ unseenTokens groups seen).count t ≤ 1) →
    (∀ t, (lookupAssoc groups t).isSome = true →
      t ∈ pot ++ unseenTokens groups seen → t ∉ seen) →
    expandMeasure groups seen pot ≤ fuel →
    ∃ revs', expandLoop groups false fuel pot revs seen = some (Except.ok revs') := by
  intro fuel
  induction fuel with
  | zero =>
    intro pot revs seen _ _ hm
    cases pot with
    | nil => exact ⟨revs, by simp [expandLoop]⟩
    | cons p rest =>
      rw [expandMeasure_eq] at hm
      simp at hm
  | succ f ih =>
    intro pot revs seen h1 h2 hm
    cases pot with
    | nil => exact ⟨revs, by simp [expandLoop]⟩
    | cons p rest =>
      rw [expandMeasure_eq, List.length_cons] at hm
      simp only [expandLoop]
      by_cases hat : strStartsWith p "@"
      · simp only [hat, if_true]
        apply ih rest _ seen
        · intro t ht
          have hle := count_cons_le p t (rest ++ unseenTokens groups seen)
          have := h1 t ht
          rw [List.cons_append] at this
          omega
        · intro t ht htm
          apply h2 t ht
          rw [List.cons_append]
          exact List.mem_cons_of_mem p htm
        · rw [expandMeasure_eq]
          omega
      · simp only [hat, Bool.false_eq_true, if_false]
        cases hlk : lookupAssoc groups p with
        | none =>
          simp only [hlk]
          apply ih rest _ seen
          · intro t ht
            have hle := count_cons_le p t (rest ++ unseenTokens groups seen)
            have := h1 t ht
            rw [List.cons_append] at this
            omega
          · intro t ht htm
            apply h2 t ht
            rw [List.cons_append]
            exact List.mem_cons_of_mem p htm
          · rw [expandMeasure_eq]
            omega
        | some members =>
          simp only [hlk]
          have hpsome : (lookupAssoc groups p).isSome = true := by simp [hlk]
          have hseen : p ∉ seen :=
            h2 p hpsome (List.mem_append_left _ (List.mem_cons_self p rest))
          have hb : seen.contains p = false := by simpa using hseen
          simp only [hb, Bool.false_eq_true, if_false, Bool.false_and]
          have hexpS := sumUnseen_expand groups seen p members hlk hseen
          have hkey : ∀ t, ((members.reverse ++ rest) ++
              unseenTokens groups (seen ++ [p])).count t ≤
              (rest ++ unseenTokens groups seen).count t := by
            intro t
            have hexpC := count_unseen_expand groups seen p t members hlk hseen
            rw [List.count_append, List.count_append, List.count_append,
              List.count_reverse]
            omega
          have hrest0 : (rest ++ unseenTokens groups seen).count p = 0 := by
            have h1p := h1 p hpsome
            rw [List.cons_append] at h1p
            exact count_head_rest_zero p _ h1p
          apply ih (members.reverse ++ rest) revs (seen ++ [p])
          · intro t ht
            have hle := count_cons_le p t (rest ++ unseenTokens groups seen)
            have h1t := h1 t ht
            rw [List.cons_append] at h1t
            have := hkey t
            omega
          · intro t ht htm
            have htc : ((members.reverse ++ rest) ++
                unseenTokens groups (seen ++ [p])).count t ≠ 0 :=
              (mem_iff_count_ne _ t).mp htm
            have htc2 : (rest ++ unseenTokens groups seen).count t ≠ 0 := by
              have := hkey t
              omega
            have htm2 : t ∈ rest ++ unseenTokens groups seen :=
              (mem_iff_count_ne _ t).mpr htc2
            have htns : t ∉ seen := by
              apply h2 t ht
              rw [List.cons_append]
              exact List.mem_cons_of_mem p htm2
            have htnp : t ≠ p := by
              intro hcon
              subst hcon
              exact htc2 hrest0
            intro hcon
            rcases List.mem_append.mp hcon with h | h
            · exact htns h
            · exact htnp (List.mem_singleton.mp h)
          · rw [expandMeasure_eq] at *
            simp only [List.length_append, List.length_reverse]
            omega

theorem expandLoop_ok_tokens (groups : List (String × List String)) (c : Bool) :
    ∀ (fuel : Nat) (pot revs seen revsF : List String),
    expandLoop groups c fuel pot revs seen = some (Except.ok revsF) →
    ∀ r ∈ revsF, r ∈ revs ∨ ∃ p, strStartsWith p "@" = true ∧
      r = String.mk p.toList.tail ∧ (p ∈ pot ∨ ∃ g ∈ groups, p ∈ g.2) := by
  intro fuel
  induction fuel with
  | zero =>
    intro pot revs seen revsF heq r hr
    cases pot with
    | nil =>
      simp only [expandLoop, Option.some.injEq, Except.ok.injEq] at heq
      subst heq
      exact Or.inl hr
    | cons p rest => simp [expandLoop] at heq
  | succ f ih =>
    intro pot revs seen revsF heq r hr
    cases pot with
    | nil =>
      simp only [expandLoop, Option.some.injEq, Except.ok.injEq] at heq
      subst heq
      exact Or.inl hr
    | cons p rest =>
      simp only [expandLoop] at heq
      by_cases hat : strStartsWith p "@"
      · rw [if_pos hat] at heq
        rcases ih rest _ seen revsF heq r hr with hin | ⟨q, hq1, hq2, hq3⟩
        · rcases List.mem_append.mp hin with h | h
          · exact Or.inl h
          · refine Or.inr ⟨p, hat, (List.mem_singleton.mp h), Or.inl ?_⟩
            exact List.mem_cons_self p rest
        · refine Or.inr ⟨q, hq1, hq2, ?_⟩
          rcases hq3 with h | h
          · exact Or.inl (List.mem_cons_of_mem p h)
          · exact Or.inr h
      · rw [if_neg hat] at heq
        cases hlk : lookupAssoc groups p with
        | none =>
          simp only [hlk] at heq
          rcases ih rest revs seen revsF heq r hr with hin | ⟨q, hq1, hq2, hq3⟩
          · exact Or.inl hin
          · refine Or.inr ⟨q, hq1, hq2, ?_⟩
            rcases hq3 with h | h
            · exact Or.inl (List.mem_cons_of_mem p h)
            · exact Or.inr h
        | some members =>
          simp only [hlk] at heq
          by_cases hseen : seen.contains p
          · rw [if_pos hseen] at heq
            simp at heq
          · rw [if_neg hseen] at heq
            by_cases hcore : (c && (p == "core")) = true
            · rw [if_pos hcore] at heq
              rcases ih (rest ++ rest) revs (seen ++ [p]) revsF heq r hr with
                hin | ⟨q, hq1, hq2, hq3⟩
              · exact Or.inl hin
              · refine Or.inr ⟨q, hq1, hq2, ?_⟩
                rcases hq3 with h | h
                · rcases List.mem_append.mp h with h2 | h2
                  · exact Or.inl (List.mem_cons_of_mem p h2)
                  · exact Or.inl (List.mem_cons_of_mem p h2)
                · exact Or.inr h
            · rw [if_neg (by simpa using hcore)] at heq
              rcases ih (members.reverse ++ rest) revs (seen ++ [p]) revsF heq r hr
                with hin | ⟨q, hq1, hq2, hq3⟩
              · exact Or.inl hin
              · refine Or.inr ⟨q, hq1, hq2, ?_⟩
                rcases hq3 with h | h
                · rcases List.mem_append.mp h with h2 | h2
                  · exact Or.inr ⟨(p, members), lookupAssoc_mem groups p members hlk,
                      List.mem_reverse.mp h2⟩
                  · exact Or.inl (List.mem_cons_of_mem p h2)
                · exact Or.inr h

/-- C4 counterexample: the configuration `{all: [], g: [all]}` with the
directory entry `d/x -> [g]` is acyclic (no group reaches itself), yet the
expansion aborts with the fatal cycle error: the alias `g -> all` re-reaches
the pre-seeded pseudo-group `all`. -/
theorem c4_counterexample :
    groupsHaveCycle [("all", []), ("g", ["all"])] = false ∧
    choose_reviewer_list [("all", []), ("g", ["all"])] [] [("d/x", ["g"])]
      "diff --git a/d/x/f b/d/x/f\n+1" "x" =
      Except.error "group all refers to itself" := by decide

/-- C4 (amended): for every group structure in which each group name is
referenced at most once in total (across the initial work list and all member
lists — in particular no diamonds) and no alias references `all`, the
work-list expansion terminates normally, and every entry of the resulting
reviewers list is an `@`-token of the configuration with the marker stripped
(group-name tokens are never appended to the reviewers list). -/
theorem c4_linear_expansion_ok (groups : List (String × List String))
    (pot : List String) (fuel : Nat)
    (h1 : ∀ g ∈ groups,
      (pot ++ (groups.map (fun g => g.2)).flatten).count g.1 ≤ 1)
    (h2 : "all" ∉ pot ++ (groups.map (fun g => g.2)).flatten)
    (hfuel : expandMeasure groups ["all"] pot ≤ fuel) :
    ∃ revs, expandLoop groups false fuel pot [] ["all"] = some (Except.ok revs) ∧
      ∀ r ∈ revs, ∃ p, strStartsWith p "@" = true ∧ r = String.mk p.toList.tail ∧
        (p ∈ pot ∨ ∃ g ∈ groups, p ∈ g.2) := by
  have hkeyed : ∀ t, (lookupAssoc groups t).isSome = true →
      (pot ++ (groups.map (fun g => g.2)).flatten).count t ≤ 1 := by
    intro t ht
    obtain ⟨members, hlk⟩ := Option.isSome_iff_exists.mp ht
    have hmem := lookupAssoc_mem groups t members hlk
    exact h1 (t, members) hmem
  have hI1 : ∀ t, (lookupAssoc groups t).isSome = true →
      (pot ++ unseenTokens groups ["all"]).count t ≤ 1 := by
    intro t ht
    have hle := count_unseen_le_join groups ["all"] t
    have := hkeyed t ht
    rw [List.count_append] at *
    omega
  have hI2 : ∀ t, (lookupAssoc groups t).isSome = true →
      t ∈ pot ++ unseenTokens groups ["all"] → t ∉ ["all"] := by
    intro t _ htm hcon
    have ht : t = "all" := List.mem_singleton.mp hcon
    subst ht
    apply h2
    rcases List.mem_append.mp htm with h | h
    · exact List.mem_append_left _ h
    · exact List.mem_append_right _ (mem_unseen_mem_join groups ["all"] "all" h)
  obtain ⟨revs, heq⟩ := expandLoop_linear_ok groups fuel pot [] ["all"] hI1 hI2 hfuel
  refine ⟨revs, heq, ?_⟩
  intro r hr
  rcases expandLoop_ok_tokens groups false fuel pot [] ["all"] revs heq r hr with
    hin | hprov
  · simp at hin
  · exact hprov

/-- C4 witness: a linear two-group configuration expands without error into
stripped usernames only. -/
theorem c4_linear_expansion_ok_witness :
    (expandLoop [("all", ["@a"]), ("g", ["@b"])] false 3 ["@a", "g"] []
      ["all"]).isSome = true := by
  obtain ⟨revs, heq, _⟩ := c4_linear_expansion_ok [("all", ["@a"]), ("g", ["@b"])]
    ["@a", "g"] 3 (by decide) (by decide) (by decide)
  simp [heq]

/-! ### C7: mention extraction -/

/-- The match test described by the claim: prefix match on the full path, or
suffix match for patterns ending in `.rs` (lines 339-341). -/
def mentionMatch (path pattern : String) : Bool :=
  strStartsWith path pattern ||
    (strEndsWith pattern ".rs" && strEndsWith path pattern)

/-- The file paths reconstructed from the diff headers (claim-side reading of
the scan). -/
def headerFullPaths (diff : String) : List String :=
  (strSplitOnChar '\n' diff).filterMap (fun line =>
    if strStartsWith line "diff --git " then
      some (strIntercalate "/" (strSplitOnChar '/' (stripB line)))
    else none)

/-- Claim-side description of the collected mention keys: for every
reconstructed (non-empty) path, every matching pattern, in encounter order,
deduplicated keeping first occurrences. -/
def matchedKeysSpec (mentions : List (String × MentionRule)) (diff : String) :
    List String :=
  dedupInto [] ((headerFullPaths diff).flatMap (fun path =>
    if path.toList.length > 0 then
      (mentions.map (fun e => e.1)).filter (mentionMatch path)
    else []))

/-- The mention keys one diff line contributes, before deduplication. -/
def lineTokens (mentions : List (String × MentionRule)) (line : String) :
    List String :=
  if strStartsWith line "diff --git " then
    let full := strIntercalate "/" (strSplitOnChar '/' (stripB line))
    if full.toList.length > 0 then
      (mentions.map (fun e => e.1)).filter (mentionMatch full)
    else []
  else []

theorem dedupInto_append (l1 l2 acc : List String) :
    dedupInto acc (l1 ++ l2) = dedupInto (dedupInto acc l1) l2 := by
  induction l1 generalizing acc with
  | nil => simp [dedupInto]
  | cons x xs ih =>
    by_cases hc : acc.contains x
    · simp only [List.cons_append, dedupInto, hc, if_true]
      exact ih acc
    · simp only [List.cons_append, dedupInto, hc, Bool.false_eq_true, if_false]
      exact ih (acc ++ [x])

theorem innerFold_eq_dedup (full : String) :
    ∀ (mentions : List (String × MentionRule)) (tm : List String),
    mentions.foldl (fun tm e =>
      if strStartsWith full e.1 && !tm.contains e.1 then tm ++ [e.1]
      else if strEndsWith e.1 ".rs" && strEndsWith full e.1 && !tm.contains e.1 then
        tm ++ [e.1]
      else tm) tm =
    dedupInto tm ((mentions.map (fun e => e.1)).filter (mentionMatch full)) := by
  intro mentions
  induction mentions with
  | nil => intro tm; simp [dedupInto]
  | cons e rest ih =>
    intro tm
    simp only [List.foldl_cons, List.map_cons, List.filter_cons]
    by_cases hm : mentionMatch full e.1
    · rw [if_pos hm]
      by_cases hcp : e.1 ∈ tm
      · have hc : tm.contains e.1 = true := by simpa using hcp
        have hc1 : (strStartsWith full e.1 && !tm.contains e.1) = false := by
          rw [hc]; simp
        have hc2 : (strEndsWith e.1 ".rs" && strEndsWith full e.1 &&
            !tm.contains e.1) = false := by
          rw [hc]; simp
        rw [hc1, hc2]
        simp only [Bool.false_eq_true, if_false, dedupInto, hc, if_true]
        exact ih tm
      · have hc : tm.contains e.1 = false := by simpa using hcp
        have hstep : (if strStartsWith full e.1 && !tm.contains e.1 then tm ++ [e.1]
            else if strEndsWith e.1 ".rs" && strEndsWith full e.1 && !tm.contains e.1 then
              tm ++ [e.1]
            else tm) = tm ++ [e.1] := by
          rcases Bool.eq_false_or_eq_true (strStartsWith full e.1) with hs | hs
          · have hcnd1 : (strStartsWith full e.1 && !tm.contains e.1) = true := by
              rw [hs, hc]; simp
            rw [hcnd1]
            simp
          · have h2 : (strEndsWith e.1 ".rs" && strEndsWith full e.1) = true := by
              rcases Bool.or_eq_true_iff.mp hm with h | h
              · rw [hs] at h; cases h
              · exact h
            have hcnd1 : (strStartsWith full e.1 && !tm.contains e.1) = false := by
              rw [hs]; simp
            have hcnd2 : (strEndsWith e.1 ".rs" && strEndsWith full e.1 &&
                !tm.contains e.1) = true := by
              rw [h2, hc]; simp
            rw [hcnd1, hcnd2]
            simp
        rw [hstep]
        simp only [dedupInto, hc, Bool.false_eq_true, if_false]
        exact ih (tm ++ [e.1])
    · have hmb : mentionMatch full e.1 = false := by simpa using hm
      have hparts := Bool.or_eq_false_iff.mp hmb
      have hs : strStartsWith full e.1 = false := hparts.1
      have he : (strEndsWith e.1 ".rs" && strEndsWith full e.1) = false := hparts.2
      have hc1 : (strStartsWith full e.1 && !tm.contains e.1) = false := by
        rw [hs]; simp
      have hc2 : (strEndsWith e.1 ".rs" && strEndsWith full e.1 &&
          !tm.contains e.1) = false := by
        rw [he]; simp
      rw [hc1, hc2]
      simp only [Bool.false_eq_true, if_false, hmb]
      exact ih tm

theorem mentionScanLine_snd (mentions : List (String × MentionRule))
    (st : Option String × List String) (line : String) :
    (mentionScanLine mentions st line).2 =
      dedupInto st.2 (lineTokens mentions line) := by
  by_cases hh : strStartsWith line "diff --git "
  · simp only [mentionScanLine, lineTokens, hh, if_true]
    have hne := strSplitOnChar_ne_nil '/' (stripB line)
    have hie : (strSplitOnChar '/' (stripB line)).isEmpty = false := by
      cases hsp : strSplitOnChar '/' (stripB line) with
      | nil => exact absurd hsp hne
      | cons a l => rfl
    simp only [hie, Bool.false_eq_true, if_false]
    by_cases hlen :
        (strIntercalate "/" (strSplitOnChar '/' (stripB line))).toList.length > 0
    · rw [if_pos hlen, if_pos hlen]
      exact innerFold_eq_dedup _ mentions st.2
    · rw [if_neg hlen, if_neg hlen]
      simp [dedupInto]
  · simp only [mentionScanLine, lineTokens, hh, Bool.false_eq_true, if_false]
    simp [dedupInto]

theorem mentionScan_fold (mentions : List (String × MentionRule)) :
    ∀ (lines : List String) (st : Option String × List String),
    (lines.foldl (mentionScanLine mentions) st).2 =
      dedupInto st.2 (lines.flatMap (lineTokens mentions)) := by
  intro lines
  induction lines with
  | nil => intro st; simp [dedupInto]
  | cons line rest ih =>
    intro st
    rw [List.foldl_cons, List.flatMap_cons, dedupInto_append, ih]
    rw [mentionScanLine_snd]

theorem headerPaths_flatMap (mentions : List (String × MentionRule)) :
    ∀ lines : List String,
    (lines.filterMap (fun line =>
      if strStartsWith line "diff --git " then
        some (strIntercalate "/" (strSplitOnChar '/' (stripB line)))
      else none)).flatMap (fun path =>
        if path.toList.length > 0 then
          (mentions.map (fun e => e.1)).filter (mentionMatch path)
        else []) =
    lines.flatMap (lineTokens mentions) := by
  intro lines
  induction lines with
  | nil => rfl
  | cons line rest ih =>
    by_cases hh : strStartsWith line "diff --git "
    · rw [List.filterMap_cons, List.flatMap_cons]
      simp only [hh, if_true, List.flatMap_cons, lineTokens]
      rw [ih]
    · rw [List.filterMap_cons, List.flatMap_cons]
      simp only [hh, Bool.false_eq_true, if_false, lineTokens]
      rw [ih]
      simp

/-- C7 counterexample: a pattern matches the touched path, but because the
`dirs` table is empty the scan never runs and `get_to_mention` returns
nothing. -/
theorem c7_counterexample :
    mentionMatch "src/x" "src" = true ∧
    get_to_mention [] [("src", ⟨none, none, ["carol"]⟩)]
      "diff --git a/src/x b/src/x" = [] := by decide

/-- C7 (amended): provided the `dirs` table is non-empty (otherwise the scan
is skipped entirely), `get_to_mention` returns exactly the rules of the
matched mention keys — every configured pattern tested against every
reconstructed header path (prefix match, or suffix match for patterns ending
in `.rs`), first match per key recorded in encounter order, later matches of
an already-recorded key ignored. -/
theorem c7_mentions_matched (dirs : List (String × List String))
    (mentions : List (String × MentionRule)) (diff : String)
    (hdirs : dirs ≠ []) :
    get_to_mention dirs mentions diff =
      (matchedKeysSpec mentions diff).filterMap (fun k => lookupAssoc mentions k) := by
  have hie : dirs.isEmpty = false := by
    cases dirs with
    | nil => exact absurd rfl hdirs
    | cons a l => rfl
  simp only [get_to_mention, hie, Bool.false_eq_true, if_false]
  have hkeys : ((strSplitOnChar '\n' diff).foldl (mentionScanLine mentions)
      ((none : Option String), ([] : List String))).2 = matchedKeysSpec mentions diff := by
    rw [mentionScan_fold]
    simp only [matchedKeysSpec, headerFullPaths]
    rw [headerPaths_flatMap]
  rw [hkeys]

/-- C7 witness: a concrete diff with two files; the `src` prefix pattern and
the `.rs` suffix pattern each match once, deduplicated in encounter order. -/
theorem c7_mentions_matched_witness :
    get_to_mention [("d", ["@x"])]
        [("src", ⟨none, none, ["carol"]⟩), ("foo.rs", ⟨some "hi", some "c", ["a"]⟩)]
        "diff --git a/src/x b/src/x\ndiff --git a/lib/foo.rs b/lib/foo.rs\ndiff --git a/src/y b/src/y" =
      (matchedKeysSpec
        [("src", ⟨none, none, ["carol"]⟩), ("foo.rs", ⟨some "hi", some "c", ["a"]⟩)]
        "diff --git a/src/x b/src/x\ndiff --git a/lib/foo.rs b/lib/foo.rs\ndiff --git a/src/y b/src/y").filterMap
        (fun k => lookupAssoc
          [("src", ⟨none, none, ["carol"]⟩), ("foo.rs", ⟨some "hi", some "c", ["a"]⟩)] k) :=
  c7_mentions_matched [("d", ["@x"])]
    [("src", ⟨none, none, ["carol"]⟩), ("foo.rs", ⟨some "hi", some "c", ["a"]⟩)]
    "diff --git a/src/x b/src/x\ndiff --git a/lib/foo.rs b/lib/foo.rs\ndiff --git a/src/y b/src/y"
    (by decide)

/-! ### C2: the aggregated mention comment -/

theorem strLen_append (a b : String) :
    (a ++ b).toList.length = a.toList.length + b.toList.length := by
  simp [String.toList]

theorem foldl_sep_hom (sep : String) :
    ∀ (zs : List String) (a pre : String),
    zs.foldl (fun acc z => acc ++ (sep ++ z)) (pre ++ a) =
      pre ++ zs.foldl (fun acc z => acc ++ (sep ++ z)) a := by
  intro zs
  induction zs with
  | nil => intro a pre; rfl
  | cons z zs ih =>
    intro a pre
    simp only [List.foldl_cons]
    rw [String.append_assoc pre a (sep ++ z)]
    exact ih (a ++ (sep ++ z)) pre

theorem strIntercalate_cons2 (sep x y : String) (zs : List String) :
    strIntercalate sep (x :: y :: zs) = x ++ sep ++ strIntercalate sep (y :: zs) := by
  simp only [strIntercalate, List.foldl_cons]
  rw [← String.append_assoc x sep y]
  exact foldl_sep_hom sep zs y (x ++ sep)

theorem strIntercalate_append_ne (sep : String) :
    ∀ (l1 : List String) (l2 : List String), l1 ≠ [] → l2 ≠ [] →
    strIntercalate sep (l1 ++ l2) =
      strIntercalate sep l1 ++ sep ++ strIntercalate sep l2 := by
  intro l1
  induction l1 with
  | nil => intro l2 h1 _; exact absurd rfl h1
  | cons x xs ih =>
    intro l2 _ h2
    cases xs with
    | nil =>
      cases l2 with
      | nil => exact absurd rfl h2
      | cons y ys =>
        simp only [List.singleton_append]
        rw [strIntercalate_cons2]
        simp [strIntercalate]
    | cons x2 xs2 =>
      have hne : x2 :: xs2 ≠ [] := by simp
      rw [List.cons_append, List.cons_append,
        strIntercalate_cons2 sep x x2 (xs2 ++ l2),
        strIntercalate_cons2 sep x x2 xs2]
      rw [← List.cons_append, ih l2 hne h2]
      simp [String.append_assoc]

theorem appendPart_of_pos (acc part : String) (h : 0 < acc.toList.length) :
    appendPart acc part = acc ++ "\n\n" ++ part := by
  simp only [appendPart, h, if_pos]

theorem appendPart_of_empty (part : String) : appendPart "" part = part := by
  have h : (("" : String).toList.length > 0) = False := by simp [String.toList]
  simp only [appendPart, h, if_false]
  have : ("" : String) ++ part = part := by simp
  rw [this]

theorem foldl_appendPart_cons (sep : String) :
    ∀ (ps : List String) (p acc : String), 0 < acc.toList.length → sep = "\n\n" →
    (p :: ps).foldl appendPart acc =
      acc ++ "\n\n" ++ strIntercalate "\n\n" (p :: ps) := by
  intro ps
  induction ps with
  | nil =>
    intro p acc h _
    simp only [List.foldl_cons, List.foldl_nil]
    rw [appendPart_of_pos acc p h]
    rfl
  | cons y ys ih =>
    intro p acc h hsep
    simp only [List.foldl_cons]
    rw [appendPart_of_pos acc p h]
    have hpos : 0 < (acc ++ "\n\n" ++ p).toList.length := by
      rw [strLen_append, strLen_append]
      omega
    have hih := ih y (acc ++ "\n\n" ++ p) hpos hsep
    simp only [List.foldl_cons] at hih
    rw [hih, strIntercalate_cons2]
    simp [String.append_assoc]

theorem mentionSegment_pos (user : String) (m : MentionRule) :
    0 < (mentionSegment user m).toList.length := by
  have h3 : ("cc " : String).toList.length = 3 := by decide
  cases hm : m.message with
  | none =>
    simp only [mentionSegment, hm, strLen_append, h3]
    omega
  | some s =>
    simp only [mentionSegment, hm, strLen_append, h3]
    omega

theorem strIntercalate_cons_pos (sep x : String) (xs : List String)
    (hx : 0 < x.toList.length) :
    0 < (strIntercalate sep (x :: xs)).toList.length := by
  cases xs with
  | nil => exact hx
  | cons y ys =>
    rw [strIntercalate_cons2, strLen_append, strLen_append]
    omega

theorem run_commands_message_eq (to_mention : List MentionRule)
    (user sha : String) (hne : to_mention ≠ []) :
    run_commands_message to_mention user sha =
      some (strIntercalate "\n\n" (to_mention.map (mentionSegment user) ++
        (dedupInto [] (to_mention.filterMap (fun r => r.command))).map
          (fun c => c ++ (" " ++ sha)))) := by
  cases to_mention with
  | nil => exact absurd rfl hne
  | cons m rest =>
    have hie : (m :: rest).isEmpty = false := rfl
    simp only [run_commands_message, hie, Bool.false_eq_true, if_false]
    have hmsg : (m :: rest).foldl
        (fun acc r => appendPart acc (mentionSegment user r)) "" =
        strIntercalate "\n\n" ((m :: rest).map (mentionSegment user)) := by
      rw [← List.foldl_map (mentionSegment user) appendPart]
      simp only [List.map_cons, List.foldl_cons, appendPart_of_empty]
      cases hrest : rest.map (mentionSegment user) with
      | nil => rfl
      | cons s2 ss =>
        have hstep := foldl_appendPart_cons "\n\n" ss s2 (mentionSegment user m)
          (mentionSegment_pos user m) rfl
        simp only [List.foldl_cons] at hstep ⊢
        rw [hstep, ← strIntercalate_cons2]
    rw [hmsg]
    have hmsgpos : 0 < (strIntercalate "\n\n"
        ((m :: rest).map (mentionSegment user))).toList.length := by
      simp only [List.map_cons]
      exact strIntercalate_cons_pos _ _ _ (mentionSegment_pos user m)
    have hcmdfold : (dedupInto [] ((m :: rest).filterMap (fun r => r.command))).foldl
        (fun acc c => appendPart acc (c ++ (" " ++ sha)))
        (strIntercalate "\n\n" ((m :: rest).map (mentionSegment user))) =
        strIntercalate "\n\n" ((m :: rest).map (mentionSegment user) ++
          (dedupInto [] ((m :: rest).filterMap (fun r => r.command))).map
            (fun c => c ++ (" " ++ sha))) := by
      rw [← List.foldl_map (fun c => c ++ (" " ++ sha)) appendPart]
      cases hc : (dedupInto [] ((m :: rest).filterMap (fun r => r.command))).map
          (fun c => c ++ (" " ++ sha)) with
      | nil => simp
      | cons c cs =>
        rw [foldl_appendPart_cons "\n\n" cs c _ hmsgpos rfl]
        rw [strIntercalate_append_ne "\n\n" ((m :: rest).map (mentionSegment user))
          (c :: cs) (by simp) (by simp)]
    rw [hcmdfold]
    have hpos2 : 0 < (strIntercalate "\n\n" ((m :: rest).map (mentionSegment user) ++
        (dedupInto [] ((m :: rest).filterMap (fun r => r.command))).map
          (fun c => c ++ (" " ++ sha)))).toList.length := by
      simp only [List.map_cons, List.cons_append]
      exact strIntercalate_cons_pos _ _ _ (mentionSegment_pos user m)
    rw [if_pos hpos2]

/-- C2 counterexample: the explicitly requested reviewer is `carol`; the
mention rule lists `carol` among its reviewers, and the aggregated comment
still cc's `carol` — the name filtered from the cc list is the integration
(bot) user, not the chosen reviewer. -/
theorem c2_counterexample :
    new_pr_decision [("all", ["@bob"])] [] [("src/x", ["@bob"])]
        [("src", ⟨none, none, ["carol", "dave"]⟩)] none "bot" []
        (some "r? @carol") "alice" "SHA" "diff --git a/src/x b/src/x\n+1" 0
        false false =
      Except.ok ⟨some "carol", false, some "cc carol,dave", none, none⟩ := by
  decide

/-- C2 (amended): the aggregated comment of `run_commands` is the
`"\n\n"`-join of one block per mention — the optional message followed by a
`cc` line over the mention's reviewers with the `user` argument filtered out —
plus one `command sha` trailer per distinct command; and the `user` argument
that `new_pr` threads through `set_assignee` is the integration (bot)
username, not the chosen reviewer. -/
theorem c2_cc_excludes_integration_user :
    (∀ (to_mention : List MentionRule) (user sha : String), to_mention ≠ [] →
      run_commands_message to_mention user sha =
        some (strIntercalate "\n\n" (to_mention.map (mentionSegment user) ++
          (dedupInto [] (to_mention.filterMap (fun r => r.command))).map
            (fun c => c ++ (" " ++ sha))))) ∧
    (∀ (repoGroups globalGroups dirs : List (String × List String))
       (mentions : List (String × MentionRule)) (contributing : Option String)
       (integrationUser : String) (body : Option String)
       (author headSha diff : String) (k : Nat) (isFork newContribQuery : Bool)
       (d : PrDecision),
       new_pr_decision repoGroups globalGroups dirs mentions contributing
         integrationUser [] body author headSha diff k isFork newContribQuery =
         Except.ok d →
       d.mentionComment =
         run_commands_message (get_to_mention dirs mentions diff)
           integrationUser headSha) := by
  refine ⟨fun tm user sha hne => run_commands_message_eq tm user sha hne, ?_⟩
  intro rG gG dirs mentions contributing iu body author sha diff k f q d hd
  simp only [new_pr_decision, List.isEmpty_nil, if_true] at hd
  by_cases ht : truthyReviewer (find_reviewer body)
  · simp only [ht, if_true] at hd
    have hinj := Except.ok.inj hd
    rw [← hinj]
  · simp only [ht, Bool.false_eq_true, if_false] at hd
    cases hcr : choose_reviewer rG gG dirs diff author k with
    | error e =>
      rw [hcr] at hd
      simp [Except.map] at hd
    | ok c =>
      rw [hcr] at hd
      simp only [Except.map] at hd
      have hinj := Except.ok.inj hd
      rw [← hinj]

/-- C2 witness: one mention with two reviewers and no command; the composed
comment is exactly its block. -/
theorem c2_cc_excludes_integration_user_witness :
    run_commands_message [⟨none, none, ["carol", "dave"]⟩] "bot" "SHA" =
      some (strIntercalate "\n\n"
        (([⟨none, none, ["carol", "dave"]⟩] : List MentionRule).map (mentionSegment "bot") ++
        (dedupInto [] (([⟨none, none, ["carol", "dave"]⟩] : List MentionRule).filterMap
          (fun r => r.command))).map (fun c => c ++ (" " ++ "SHA")))) :=
  c2_cc_excludes_integration_user.1 [⟨none, none, ["carol", "dave"]⟩] "bot" "SHA"
    (by decide)

/-! ### C9: explicit reviewer requests -/

/-- Word-character state after scanning a character list: `true` when the
last character is a word character, the initial state when the list is
empty. -/
def lastW (prevW : Bool) : List Char → Bool
  | [] => prevW
  | c :: rest => lastW (wordChar c) rest

theorem dropWhile_append_all (p : Char → Bool) :
    ∀ (l1 l2 : List Char), (∀ c ∈ l1, p c = true) →
    (l1 ++ l2).dropWhile p = l2.dropWhile p := by
  intro l1
  induction l1 with
  | nil => intro l2 _; rfl
  | cons c cs ih =>
    intro l2 h
    have hc : p c = true := h c (List.mem_cons_self c cs)
    simp only [List.cons_append, List.dropWhile_cons, hc, if_true]
    exact ih l2 (fun x hx => h x (List.mem_cons_of_mem c hx))

theorem takeWhile_append_stop (p : Char → Bool) :
    ∀ (l1 l2 : List Char), (∀ c ∈ l1, p c = true) →
    (∀ c, l2.head? = some c → p c = false) →
    (l1 ++ l2).takeWhile p = l1 := by
  intro l1
  induction l1 with
  | nil =>
    intro l2 _ h2
    cases l2 with
    | nil => rfl
    | cons c cs => simp [List.takeWhile_cons, h2 c rfl]
  | cons c cs ih =>
    intro l2 h1 h2
    have hc : p c = true := h1 c (List.mem_cons_self c cs)
    simp only [List.cons_append, List.takeWhile_cons, hc, if_true]
    rw [ih l2 (fun x hx => h1 x (List.mem_cons_of_mem c hx)) h2]

theorem matchHere_at (rc : Char) (sep name rest : List Char)
    (hrc : rc = 'r' ∨ rc = 'R')
    (hsep : ∀ c ∈ sep, sepChar c = true)
    (hname : name ≠ []) (hnamec : ∀ c ∈ name, nameChar c = true)
    (hrest : ∀ c, rest.head? = some c → nameChar c = false) :
    matchHere (rc :: '?' :: (sep ++ '@' :: (name ++ rest))) = some name := by
  have hb : ((rc == 'r' || rc == 'R') && ('?' == '?')) = true := by
    rcases hrc with h | h <;> simp [h]
  have hdrop : (sep ++ '@' :: (name ++ rest)).dropWhile sepChar =
      '@' :: (name ++ rest) := by
    rw [dropWhile_append_all sepChar sep _ hsep]
    have : sepChar '@' = false := by decide
    simp [List.dropWhile_cons, this]
  have htake : (name ++ rest).takeWhile nameChar = name :=
    takeWhile_append_stop nameChar name rest hnamec hrest
  have hie : name.isEmpty = false := by
    cases name with
    | nil => exact absurd rfl hname
    | cons a l => rfl
  simp only [matchHere, hb, if_true, hdrop, htake, hie, Bool.false_eq_true,
    if_false]
  simp

theorem matchHere_none_of_second (a : Char) (l : List Char)
    (h : ∀ c, l.head? = some c → c ≠ '?') :
    matchHere (a :: l) = none := by
  cases l with
  | nil => rfl
  | cons b r =>
    have hb : b ≠ '?' := h b rfl
    have hbb : (b == '?') = false := by simpa using hb
    have hcond : ((a == 'r' || a == 'R') && (b == '?')) = false := by
      rw [hbb]
      simp
    simp only [matchHere, hcond, Bool.false_eq_true, if_false]

theorem searchReviewer_step_none (prevW : Bool) (c : Char) (rest : List Char)
    (h : (if prevW then none else matchHere (c :: rest)) = none) :
    searchReviewer prevW (c :: rest) = searchReviewer (wordChar c) rest := by
  simp only [searchReviewer, h]

theorem searchReviewer_step_some (c : Char) (rest name : List Char)
    (h : matchHere (c :: rest) = some name) :
    searchReviewer false (c :: rest) = some name := by
  simp only [searchReviewer, Bool.false_eq_true, if_false, h]

theorem searchReviewer_skip :
    ∀ (pre : List Char) (prevW : Bool) (tail : List Char),
    '?' ∉ pre →
    (∀ c, tail.head? = some c → c ≠ '?') →
    searchReviewer prevW (pre ++ tail) = searchReviewer (lastW prevW pre) tail := by
  intro pre
  induction pre with
  | nil => intro prevW tail _ _; rfl
  | cons p1 pre' ih =>
    intro prevW tail hq htail
    have hq' : '?' ∉ pre' := fun h => hq (List.mem_cons_of_mem p1 h)
    have hsecond : ∀ c, (pre' ++ tail).head? = some c → c ≠ '?' := by
      intro c hc
      cases pre' with
      | nil => exact htail c hc
      | cons q qs =>
        have hqc : q = c := by simpa using hc
        subst hqc
        intro hcon
        rw [hcon] at hq
        exact hq (List.mem_cons_of_mem p1 (List.mem_cons_self _ _))
    have hnone : (if prevW then none else matchHere (p1 :: (pre' ++ tail))) = none := by
      cases prevW with
      | true => rfl
      | false =>
        simp only [Bool.false_eq_true, if_false]
        exact matchHere_none_of_second p1 (pre' ++ tail) hsecond
    rw [List.cons_append, searchReviewer_step_none prevW p1 (pre' ++ tail) hnone,
      ih (wordChar p1) tail hq' htail]
    rfl

theorem find_reviewer_finds (pre sep name rest : List Char) (rc : Char)
    (body : String)
    (hbody : body.toList = pre ++ rc :: '?' :: (sep ++ '@' :: (name ++ rest)))
    (hrc : rc = 'r' ∨ rc = 'R')
    (hq : '?' ∉ pre)
    (hlast : lastW false pre = false)
    (hsep : ∀ c ∈ sep, sepChar c = true)
    (hname : name ≠ []) (hnamec : ∀ c ∈ name, nameChar c = true)
    (hrest : ∀ c, rest.head? = some c → nameChar c = false) :
    find_reviewer (some body) = some (String.mk name) := by
  have hrcq : rc ≠ '?' := by
    rcases hrc with h | h <;> rw [h] <;> decide
  simp only [find_reviewer]
  rw [hbody]
  rw [searchReviewer_skip pre false (rc :: '?' :: (sep ++ '@' :: (name ++ rest))) hq
    (by intro c hc; simp only [List.head?_cons, Option.some.injEq] at hc;
        rw [← hc]; exact hrcq)]
  rw [hlast]
  rw [searchReviewer_step_some rc ('?' :: (sep ++ '@' :: (name ++ rest))) name
    (matchHere_at rc sep name rest hrc hsep hname hnamec hrest)]
  rfl

/-- C9: a PR body containing a reviewer-mention pattern — optional text
`pre` with no `'?'` that is empty or ends in an ASCII non-word character
(`lastW false pre = false`, the fragment where the Unicode `\b` of the
source regex provably holds), then `r?` or `R?`, separators from `[:\- ]`,
and an `@name` token with the maximal name run captured — makes
`find_reviewer` return that username, and `new_pr` (with no pre-existing
assignees) uses it as the assignee, never invokes `choose_reviewer`, and
posts no reviewer-selection notice (in particular not the "no appropriate
reviewer found" fallback). -/
theorem c9_explicit_reviewer_used (pre sep name rest : List Char) (rc : Char)
    (body : String)
    (hbody : body.toList = pre ++ rc :: '?' :: (sep ++ '@' :: (name ++ rest)))
    (hrc : rc = 'r' ∨ rc = 'R')
    (hq : '?' ∉ pre)
    (hlast : lastW false pre = false)
    (hsep : ∀ c ∈ sep, sepChar c = true)
    (hname : name ≠ []) (hnamec : ∀ c ∈ name, nameChar c = true)
    (hrest : ∀ c, rest.head? = some c → nameChar c = false) :
    find_reviewer (some body) = some (String.mk name) ∧
    ∀ (repoGroups globalGroups dirs : List (String × List String))
      (mentions : List (String × MentionRule)) (contributing : Option String)
      (integrationUser author headSha diff : String) (k : Nat)
      (isFork newContribQuery : Bool),
      ∃ d, new_pr_decision repoGroups globalGroups dirs mentions contributing
          integrationUser [] (some body) author headSha diff k isFork
          newContribQuery = Except.ok d ∧
        d.assignee = some (String.mk name) ∧
        d.invokedChooseReviewer = false ∧
        d.reviewComment = none := by
  have hfind := find_reviewer_finds pre sep name rest rc body hbody hrc hq hlast
    hsep hname hnamec hrest
  refine ⟨hfind, ?_⟩
  intro rG gG dirs mentions contributing iu author sha diff k f q
  have hie : name.isEmpty = false := by
    cases name with
    | nil => exact absurd rfl hname
    | cons a l => rfl
  have ht : truthyReviewer (find_reviewer (some body)) = true := by
    rw [hfind]
    simp [truthyReviewer, String.toList, hie]
  simp only [new_pr_decision, List.isEmpty_nil, if_true, ht]
  refine ⟨_, rfl, ?_, rfl, ?_⟩
  · simpa using hfind
  · simp

/-- C9 witness: `"r? @carol"` yields the explicit reviewer `carol`; the
heuristic selector is never invoked and no selection notice is owed. -/
theorem c9_explicit_reviewer_used_witness :
    find_reviewer (some "r? @carol") = some (String.mk "carol".toList) ∧
    (new_pr_decision [("all", [])] [] [] [] none "bot" [] (some "r? @carol")
        "alice" "S" "" 0 false false).map
      (fun d => (d.assignee, d.invokedChooseReviewer, d.reviewComment)) =
      Except.ok (some (String.mk "carol".toList), false, none) := by
  have h := c9_explicit_reviewer_used [] [' '] "carol".toList [] 'r' "r? @carol"
    (by decide) (Or.inl rfl) (by decide) (by decide) (by decide) (by decide)
    (by decide) (by intro c hc; simp at hc)
  refine ⟨h.1, ?_⟩
  obtain ⟨d, hd, h1, h2, h3⟩ := h.2 [("all", [])] [] [] [] none "bot" "alice"
    "S" "" 0 false false
  rw [hd]
  simp [Except.map, h1, h2, h3]
